import Mathlib

/-!
Verification of the zmin JSON minifier against its specification.

The repository ships only the Node.js binding (binding.cpp); the native
engine behind the C ABI (zmin_minify_mode, zmin_validate, zmin_free_result)
is not in the visible sources, so the engine is modelled from the
specification: a whitespace-stripping scanner shared by three strategies
(minimal-memory, balanced, maximum-throughput chunked), a single-pass
recursive-descent JSON validator, an engine dispatching on an integer
mode, and an explicit buffer-ownership model for the result-release call.
The binding's argument handling is embedded directly from binding.cpp.
-/

namespace Zmin

/-- Insignificant whitespace bytes per the spec glossary: space, tab,
newline, carriage return. -/
def isWs (b : Nat) : Bool := b == 32 || b == 9 || b == 10 || b == 13

/-- ASCII decimal digit. -/
def isDigit (b : Nat) : Bool := 48 ≤ b && b ≤ 57

/-- ASCII hexadecimal digit. -/
def isHex (b : Nat) : Bool := isDigit b || (97 ≤ b && b ≤ 102) || (65 ≤ b && b ≤ 70)

/-- Modelled from the spec: the tokenizer's string-tracking state used by
every minification strategy (the engine itself is absent from src/).
`inString` is true between an opening quote and its closing quote;
`escaped` is true right after a backslash inside a string. -/
structure ScanState where
  inString : Bool
  escaped : Bool
deriving DecidableEq

/-- The scanner's starting state: outside any string literal. -/
def initScan : ScanState := ⟨false, false⟩

/-- Successor state while inside a string literal. -/
def stringNext (esc : Bool) (b : Nat) : ScanState :=
  if esc then ⟨true, false⟩
  else if b == 92 then ⟨true, true⟩
  else if b == 34 then ⟨false, false⟩
  else ⟨true, false⟩

/-- One scanner transition on a single byte. -/
def scanStep (s : ScanState) (b : Nat) : ScanState :=
  if s.inString then stringNext s.escaped b
  else if isWs b then s
  else if b == 34 then ⟨true, false⟩
  else s

/-- Scanner state after a whole byte list. -/
def scanFold (s : ScanState) (xs : List Nat) : ScanState := xs.foldl scanStep s

/-- Modelled from the spec: the minimal-memory strategy's single pass,
emitting each byte unless it is insignificant whitespace outside a string
literal (the engine's strategy code is absent from src/). -/
def ecoRun : ScanState → List Nat → List Nat
  | _, [] => []
  | s, b :: rest =>
    if s.inString || !isWs b then b :: ecoRun (scanStep s b) rest
    else ecoRun (scanStep s b) rest

/-- Minimal-memory strategy entry point. -/
def minifyEco (xs : List Nat) : List Nat := ecoRun initScan xs

/-- Modelled from the spec: the balanced strategy's single pass with a
write buffer, accumulating output and flushing it once at the end. -/
def sportRun : ScanState → List Nat → List Nat → List Nat
  | _, buf, [] => buf.reverse
  | s, buf, b :: rest =>
    if s.inString || !isWs b then sportRun (scanStep s b) (b :: buf) rest
    else sportRun (scanStep s b) buf rest

/-- Balanced strategy entry point. -/
def minifySport (xs : List Nat) : List Nat := sportRun initScan [] xs

/-- Nominal chunk length for the maximum-throughput strategy. -/
def chunkSize : Nat := 64

/-- Take one chunk of at least `fuel` bytes, extending it until the scan
state is outside any string literal, so the cut is a safe boundary. -/
def takeChunk : ScanState → Nat → List Nat → List Nat × List Nat
  | _, _, [] => ([], [])
  | s, fuel, b :: rest =>
    let s2 := scanStep s b
    if fuel ≤ 1 && !s2.inString && !s2.escaped then ([b], rest)
    else
      let p := takeChunk s2 (fuel - 1) rest
      (b :: p.1, p.2)

/-- Modelled from the spec: partition the input into independently
scannable chunks cut only at safe boundaries outside string literals. -/
def splitChunks : Nat → List Nat → List (List Nat)
  | 0, xs => [xs]
  | Nat.succ _, [] => []
  | Nat.succ fuel, b :: rest =>
    let p := takeChunk initScan chunkSize (b :: rest)
    p.1 :: splitChunks fuel p.2

/-- Modelled from the spec: the maximum-throughput strategy scans each
chunk independently from the initial state and concatenates the outputs
in original order. -/
def minifyTurbo (xs : List Nat) : List Nat :=
  ((splitChunks xs.length xs).map (ecoRun initScan)).flatten

/-- Pair each byte with the in-string flag of the scanner state right
before it is consumed; a declarative view of string contexts. -/
def stringCtx : ScanState → List Nat → List (Nat × Bool)
  | _, [] => []
  | s, b :: rest => (b, s.inString) :: stringCtx (scanStep s b) rest

/-- Drop leading insignificant whitespace. -/
def skipWs : List Nat → List Nat
  | [] => []
  | b :: rest => if isWs b then skipWs rest else b :: rest

/-- Single-character escapes allowed after a backslash in a JSON string. -/
def isSimpleEscape (e : Nat) : Bool :=
  e == 34 || e == 92 || e == 47 || e == 98 || e == 102 || e == 110 || e == 114 || e == 116

/-- Whether the list starts with the given byte. -/
def headIs (c : Nat) : List Nat → Bool
  | [] => false
  | b :: _ => b == c

/-- Whether the list starts with a decimal digit. -/
def headDigit : List Nat → Bool
  | [] => false
  | b :: _ => isDigit b

/-- Tail of a list, empty on empty. -/
def tailOf : List Nat → List Nat
  | [] => []
  | _ :: r => r

/-- Consume an exact byte sequence, returning the rest. -/
def expectLit : List Nat → List Nat → Option (List Nat)
  | [], xs => some xs
  | _ :: _, [] => none
  | l :: ls, x :: xs => if x == l then expectLit ls xs else none

mutual

/-- Modelled from the spec: the validator's scan of a string literal body
(after the opening quote), checking escape and unicode-escape
well-formedness and rejecting raw control characters; returns the bytes
consumed (which the minifier copies verbatim, closing quote included)
and the rest of the input. -/
def parseStringBody : List Nat → Option (List Nat × List Nat)
  | [] => none
  | b :: rest =>
    if b == 34 then some ([34], rest)
    else if b == 92 then (parseEsc rest).map fun p => (92 :: p.1, p.2)
    else if b < 32 then none
    else (parseStringBody rest).map fun p => (b :: p.1, p.2)

/-- The part of a string-literal escape after the backslash. -/
def parseEsc : List Nat → Option (List Nat × List Nat)
  | [] => none
  | e :: rest1 =>
    if isSimpleEscape e then (parseStringBody rest1).map fun p => (e :: p.1, p.2)
    else if e == 117 then parseU rest1
    else none

/-- The four hex digits of a unicode escape, then the rest of the string. -/
def parseU : List Nat → Option (List Nat × List Nat)
  | h1 :: h2 :: h3 :: h4 :: rest2 =>
    if isHex h1 && isHex h2 && isHex h3 && isHex h4 then
      (parseStringBody rest2).map fun p => (117 :: h1 :: h2 :: h3 :: h4 :: p.1, p.2)
    else none
  | _ => none

end

/-- Longest digit run at the front of the input. -/
def parseDigits : List Nat → List Nat × List Nat
  | [] => ([], [])
  | b :: rest =>
    if isDigit b then
      let p := parseDigits rest
      (b :: p.1, p.2)
    else ([], b :: rest)

/-- Integer part of a JSON number: a lone zero or a nonzero digit
followed by any digits (no leading zero otherwise). -/
def parseIntPart : List Nat → Option (List Nat × List Nat)
  | [] => none
  | b :: rest =>
    if b == 48 then some ([48], rest)
    else if isDigit b then
      let p := parseDigits rest
      some (b :: p.1, p.2)
    else none

/-- Optional fraction part: a dot followed by at least one digit. -/
def parseFrac : List Nat → Option (List Nat × List Nat)
  | [] => some ([], [])
  | b :: rest =>
    if b == 46 then
      let p := parseDigits rest
      if p.1.isEmpty then none else some (46 :: p.1, p.2)
    else some ([], b :: rest)

/-- Optional exponent sign. -/
def parseSign : List Nat → List Nat × List Nat
  | [] => ([], [])
  | c :: rest => if c == 43 || c == 45 then ([c], rest) else ([], c :: rest)

/-- Optional exponent part: e or E, an optional sign, at least one digit. -/
def parseExp : List Nat → Option (List Nat × List Nat)
  | [] => some ([], [])
  | b :: rest =>
    if b == 101 || b == 69 then
      let sp := parseSign rest
      let p := parseDigits sp.2
      if p.1.isEmpty then none else some (b :: sp.1 ++ p.1, p.2)
    else some ([], b :: rest)

/-- Optional leading minus of a number. -/
def parseNeg : List Nat → List Nat × List Nat
  | [] => ([], [])
  | c :: rest => if c == 45 then ([45], rest) else ([], c :: rest)

/-- Modelled from the spec: JSON number grammar — optional sign, integer
part with no leading zero except a lone zero, optional fraction,
optional exponent; the bytes are copied verbatim. -/
def parseNumber (xs : List Nat) : Option (List Nat × List Nat) :=
  let sp := parseNeg xs
  (parseIntPart sp.2).bind fun ipp =>
    (parseFrac ipp.2).bind fun fpp =>
      (parseExp fpp.2).map fun epp =>
        (sp.1 ++ ipp.1 ++ fpp.1 ++ epp.1, epp.2)

/-- Bytes that can occur in a number token: digits, sign, dot, exponent. -/
def isNumByte (b : Nat) : Bool :=
  isDigit b || b == 45 || b == 46 || b == 101 || b == 69 || b == 43

/-- True when the continuation cannot extend a preceding number token. -/
def noNumExt : List Nat → Bool
  | [] => true
  | c :: _ => !isNumByte c

/-- Bytes that can start a JSON value. -/
def valueStart (c : Nat) : Bool :=
  c == 34 || c == 123 || c == 91 || c == 116 || c == 102 || c == 110 || c == 45 || isDigit c

mutual

/-- Modelled from the spec: single-pass recursive-descent check of one
JSON value (the engine's validator is absent from src/), emitting the
minified rendering as it goes. The fuel bounds nesting and repetition;
callers pass one more than the input length, which each recursive call
strictly decreases only after consuming at least one byte. Expects its
input to start at a non-whitespace byte. -/
def parseValue : Nat → List Nat → Option (List Nat × List Nat)
  | 0, _ => none
  | Nat.succ fuel, xs =>
    if headIs 34 xs then (parseStringBody (tailOf xs)).map fun p => (34 :: p.1, p.2)
    else if headIs 123 xs then
      let ys := skipWs (tailOf xs)
      if headIs 125 ys then some ([123, 125], tailOf ys)
      else (parseMembers fuel ys).map fun p => (123 :: p.1, p.2)
    else if headIs 91 xs then
      let ys := skipWs (tailOf xs)
      if headIs 93 ys then some ([91, 93], tailOf ys)
      else (parseElements fuel ys).map fun p => (91 :: p.1, p.2)
    else if headIs 116 xs then
      (expectLit [116, 114, 117, 101] xs).map fun r => ([116, 114, 117, 101], r)
    else if headIs 102 xs then
      (expectLit [102, 97, 108, 115, 101] xs).map fun r => ([102, 97, 108, 115, 101], r)
    else if headIs 110 xs then
      (expectLit [110, 117, 108, 108] xs).map fun r => ([110, 117, 108, 108], r)
    else if headIs 45 xs || headDigit xs then parseNumber xs
    else none

/-- Nonempty object member list followed by the closing brace, emitting
minified `key:value` pairs separated by commas. -/
def parseMembers : Nat → List Nat → Option (List Nat × List Nat)
  | 0, _ => none
  | Nat.succ fuel, xs =>
    if headIs 34 xs then
      (parseStringBody (tailOf xs)).bind fun kp =>
        let r1 := skipWs kp.2
        if headIs 58 r1 then
          (parseValue fuel (skipWs (tailOf r1))).bind fun vp =>
            let r3 := skipWs vp.2
            if headIs 44 r3 then
              (parseMembers fuel (skipWs (tailOf r3))).map fun mp =>
                (34 :: kp.1 ++ 58 :: vp.1 ++ 44 :: mp.1, mp.2)
            else if headIs 125 r3 then some (34 :: kp.1 ++ 58 :: vp.1 ++ [125], tailOf r3)
            else none
        else none
    else none

/-- Nonempty array element list followed by the closing bracket, emitting
minified elements separated by commas. -/
def parseElements : Nat → List Nat → Option (List Nat × List Nat)
  | 0, _ => none
  | Nat.succ fuel, xs =>
    (parseValue fuel xs).bind fun vp =>
      let rs := skipWs vp.2
      if headIs 44 rs then
        (parseElements fuel (skipWs (tailOf rs))).map fun ep => (vp.1 ++ 44 :: ep.1, ep.2)
      else if headIs 93 rs then some (vp.1 ++ [93], tailOf rs)
      else none

end

/-- Modelled from the spec: parse exactly one top-level value with only
whitespace around it and return its minified rendering. -/
def minifyParse (xs : List Nat) : Option (List Nat) :=
  (parseValue (xs.length + 1) (skipWs xs)).bind fun p =>
    if (skipWs p.2).isEmpty then some p.1 else none

/-- Modelled from the spec: zmin_validate, the engine's boolean grammar
check (absent from src/). -/
def zmin_validate (xs : List Nat) : Bool := (minifyParse xs).isSome

/-- The ABI-facing integer form of validation: 0 = invalid, nonzero = valid. -/
def zmin_validate_int (xs : List Nat) : Int := if zmin_validate xs then 1 else 0

/-- Success code. -/
def ZMIN_OK : Nat := 0
/-- Modelled from the spec: malformed-JSON error code (grammar violation,
including empty or whitespace-only input as a subtype). -/
def ZMIN_ERROR_MALFORMED : Nat := 1
/-- Modelled from the spec: dedicated invalid-mode error code. -/
def ZMIN_ERROR_INVALID_MODE : Nat := 2
/-- Modelled from the spec: allocation-failure error code, distinguishable
from malformed JSON. -/
def ZMIN_ERROR_ALLOC : Nat := 3

/-- The engine's minification strategies named by the spec. -/
inductive Strategy
  | minimalMemory
  | balanced
  | maxThroughput
deriving DecidableEq

/-- Modelled from the spec: the closed mode-to-strategy table. The binding
passes mode 1 by default and the spec names balanced as the default
strategy, so 1 is balanced; 0 is minimal-memory, 2 is maximum-throughput. -/
def strategyForMode (m : Int) : Option Strategy :=
  if m = 0 then some Strategy.minimalMemory
  else if m = 1 then some Strategy.balanced
  else if m = 2 then some Strategy.maxThroughput
  else none

/-- A mode is defined when the strategy table maps it to a strategy. -/
def isDefinedMode (m : Int) : Bool := (strategyForMode m).isSome

/-- Run one strategy's minification pass. -/
def runStrategy : Strategy → List Nat → List Nat
  | Strategy.minimalMemory, xs => minifyEco xs
  | Strategy.balanced, xs => minifySport xs
  | Strategy.maxThroughput, xs => minifyTurbo xs

/-- The ABI result structure: owned data buffer, its size, error code. -/
structure Result where
  data : Option (List Nat)
  size : Nat
  error_code : Nat
deriving DecidableEq

/-- Modelled from the spec: zmin_minify_mode (absent from src/). Resolves
the mode to a strategy (unknown mode is a dedicated error with no partial
output), validates, and on success returns the strategy's output sized
exactly to the minified length. -/
def zmin_minify_mode (input : List Nat) (mode : Int) : Result :=
  match strategyForMode mode with
  | none => { data := none, size := 0, error_code := ZMIN_ERROR_INVALID_MODE }
  | some strat =>
    if zmin_validate input then
      let out := runStrategy strat input
      { data := some out, size := out.length, error_code := ZMIN_OK }
    else { data := none, size := 0, error_code := ZMIN_ERROR_MALFORMED }

/-- Allocation-tracking state: the next fresh buffer id and the ids of
buffers currently owned by callers (live). -/
structure AllocState where
  nextId : Nat
  live : List Nat
deriving DecidableEq

/-- Allocate a fresh buffer id. -/
def allocBuf (h : AllocState) : AllocState × Nat :=
  ({ nextId := h.nextId + 1, live := h.nextId :: h.live }, h.nextId)

/-- The ABI result as seen across the boundary: a nullable pointer id in
place of the data buffer. -/
structure CResult where
  data : Option Nat
  size : Nat
  error_code : Nat
deriving DecidableEq

/-- Modelled from the spec: zmin_minify_mode viewed through the
allocation tracker — a successful call allocates an output buffer whose
ownership transfers to the caller; a failed call allocates nothing and
carries a null data pointer. -/
def minifyAlloc (input : List Nat) (mode : Int) (h : AllocState) :
    CResult × AllocState :=
  let r := zmin_minify_mode input mode
  match r.data with
  | some out =>
    let p := allocBuf h
    ({ data := some p.2, size := out.length, error_code := r.error_code }, p.1)
  | none => ({ data := none, size := r.size, error_code := r.error_code }, h)

/-- Modelled from the spec: zmin_free_result (absent from src/) — releases
`data` if non-null; releasing a pointer that is not live (double free or a
foreign pointer) is invalid, signalled by `none`. -/
def free_result (r : CResult) (h : AllocState) : Option AllocState :=
  match r.data with
  | none => some h
  | some p => if p ∈ h.live then some { h with live := h.live.erase p } else none

/-- A JavaScript value as the N-API binding classifies it: a string, a
number, or anything else. -/
inductive NapiValue
  | vString (s : List Nat)
  | vNumber (n : Int)
  | vOther
deriving DecidableEq

/-- Mirror of info[i].IsString(). -/
def NapiValue.isStr : NapiValue → Bool
  | NapiValue.vString _ => true
  | _ => false

/-- Mirror of info[i].IsNumber(). -/
def NapiValue.isNum : NapiValue → Bool
  | NapiValue.vNumber _ => true
  | _ => false

/-- What ZminBinding::Minify hands back to JavaScript: a thrown TypeError
(wrong argument count or a non-string first argument), a thrown Error
carrying the engine's error code, or the minified string. -/
inductive BindingReturn
  | typeErrorArgCount
  | typeErrorArgs
  | jsError (code : Nat)
  | ok (s : List Nat)
deriving DecidableEq

/-- Observable trace of one ZminBinding::Minify call: the returned value,
the mode the engine was invoked with (none when the engine was never
called), and how many times zmin_free_result ran. -/
structure BindingTrace where
  ret : BindingReturn
  calledMode : Option Int
  frees : Nat
deriving DecidableEq

/-- Embedding of ZminBinding::Minify from binding.cpp: fewer than one
argument or a non-string first argument throws a TypeError; the mode
defaults to 1 and is taken from the second argument only when that
argument is a number; a non-zero engine error code becomes a thrown
Error; both engine paths free the result exactly once. -/
def ZminBinding_Minify (args : List NapiValue) : BindingTrace :=
  match args with
  | [] => { ret := BindingReturn.typeErrorArgCount, calledMode := none, frees := 0 }
  | a0 :: rest =>
    match a0 with
    | NapiValue.vString input =>
      let mode : Int :=
        match rest with
        | NapiValue.vNumber n :: _ => n
        | _ => 1
      let r := zmin_minify_mode input mode
      if r.error_code ≠ 0 then
        { ret := BindingReturn.jsError r.error_code, calledMode := some mode, frees := 1 }
      else
        { ret := BindingReturn.ok (r.data.getD []), calledMode := some mode, frees := 1 }
    | _ => { ret := BindingReturn.typeErrorArgs, calledMode := none, frees := 0 }

/-- Embedding of ZminBinding::Validate from binding.cpp: type checks the
first argument, then returns whether zmin_validate gave nonzero. -/
def ZminBinding_Validate (args : List NapiValue) : Option Bool :=
  match args with
  | [] => none
  | a0 :: _ =>
    match a0 with
    | NapiValue.vString input => some (decide (zmin_validate_int input ≠ 0))
    | _ => none

/-- True when ZminBinding::Minify would throw a TypeError on these
arguments: no arguments, or a first argument that is not a string. -/
def badArgs : List NapiValue → Bool
  | [] => true
  | a0 :: _ => !a0.isStr

/-- Whether a binding return is a thrown TypeError. -/
def BindingReturn.isTypeError : BindingReturn → Bool
  | BindingReturn.typeErrorArgCount => true
  | BindingReturn.typeErrorArgs => true
  | _ => false

theorem scanFold_nil (s : ScanState) : scanFold s [] = s := rfl

theorem scanFold_cons (s : ScanState) (b : Nat) (xs : List Nat) :
    scanFold s (b :: xs) = scanFold (scanStep s b) xs := rfl

/-- The minimal-memory pass is the declarative filter: keep exactly the
bytes that are inside a string literal or are not whitespace. -/
theorem ecoRun_ctx (xs : List Nat) : ∀ s, ecoRun s xs =
    ((stringCtx s xs).filter fun p => p.2 || !isWs p.1).map Prod.fst := by
  induction xs with
  | nil => intro s; rfl
  | cons b rest ih =>
    intro s
    by_cases h : (s.inString || !isWs b) = true
    · simp [ecoRun, stringCtx, h, ih]
    · simp [ecoRun, stringCtx, h, ih]

/-- The buffered balanced pass agrees with the direct pass. -/
theorem sportRun_eq (xs : List Nat) : ∀ s buf,
    sportRun s buf xs = buf.reverse ++ ecoRun s xs := by
  induction xs with
  | nil => intro s buf; simp [sportRun, ecoRun]
  | cons b rest ih =>
    intro s buf
    by_cases h : (s.inString || !isWs b) = true
    · simp [sportRun, ecoRun, h, ih]
    · simp [sportRun, ecoRun, h, ih]

theorem minifySport_eq (xs : List Nat) : minifySport xs = minifyEco xs := by
  simp [minifySport, minifyEco, sportRun_eq]

theorem ecoRun_append (xs : List Nat) : ∀ s ys,
    ecoRun s (xs ++ ys) = ecoRun s xs ++ ecoRun (scanFold s xs) ys := by
  induction xs with
  | nil => intro s ys; simp [ecoRun, scanFold]
  | cons b rest ih =>
    intro s ys
    by_cases h : (s.inString || !isWs b) = true
    · simp [ecoRun, h, ih, scanFold_cons]
    · simp [ecoRun, h, ih, scanFold_cons]

/-- A chunk cut is sound: the chunk and the rest reassemble the input, and
when anything is left, the cut happened at a safe boundary, so the scan
state after the chunk is the initial one. -/
theorem takeChunk_spec (xs : List Nat) : ∀ s n,
    (takeChunk s n xs).1 ++ (takeChunk s n xs).2 = xs ∧
    ((takeChunk s n xs).2 ≠ [] → scanFold s (takeChunk s n xs).1 = initScan) := by
  induction xs with
  | nil => intro s n; simp [takeChunk]
  | cons b rest ih =>
    intro s n
    by_cases h : (n ≤ 1 && !(scanStep s b).inString && !(scanStep s b).escaped) = true
    · simp only [takeChunk, h, if_true]
      refine ⟨rfl, fun _ => ?_⟩
      simp only [Bool.and_eq_true, decide_eq_true_eq, Bool.not_eq_true'] at h
      have : scanStep s b = initScan := by
        cases hs : scanStep s b
        rw [hs] at h
        simp only [initScan]
        simp_all
      rw [scanFold_cons, this, scanFold_nil]
    · simp only [takeChunk, h, if_false, Bool.false_eq_true]
      refine ⟨?_, fun hr => ?_⟩
      · have := (ih (scanStep s b) (n - 1)).1
        simpa using this
      · have := (ih (scanStep s b) (n - 1)).2
        rw [scanFold_cons]
        simp only at hr
        exact this hr

/-- Concatenating the per-chunk passes recovers the single pass. -/
theorem splitChunks_flatten (fuel : Nat) : ∀ xs,
    ((splitChunks fuel xs).map (ecoRun initScan)).flatten = ecoRun initScan xs := by
  induction fuel with
  | zero => intro xs; simp [splitChunks]
  | succ fuel ih =>
    intro xs
    match xs with
    | [] => simp [splitChunks, ecoRun]
    | b :: rest =>
      simp only [splitChunks, List.map_cons, List.flatten_cons]
      rw [ih]
      have h := takeChunk_spec (b :: rest) initScan chunkSize
      by_cases hr : (takeChunk initScan chunkSize (b :: rest)).2 = []
      · rw [hr]
        conv_rhs => rw [← h.1]
        rw [hr]
        simp [ecoRun]
      · have h2 := h.2 hr
        conv_rhs => rw [← h.1]
        rw [ecoRun_append, h2]

theorem minifyTurbo_eq (xs : List Nat) : minifyTurbo xs = minifyEco xs :=
  splitChunks_flatten xs.length xs

/-- Every registered strategy computes the same byte sequence. -/
theorem runStrategy_eq (st : Strategy) (xs : List Nat) :
    runStrategy st xs = minifyEco xs := by
  cases st with
  | minimalMemory => rfl
  | balanced => exact minifySport_eq xs
  | maxThroughput => exact minifyTurbo_eq xs

theorem ecoRun_inString_cons (e : Bool) (b : Nat) (rest : List Nat) :
    ecoRun ⟨true, e⟩ (b :: rest) = b :: ecoRun (stringNext e b) rest := by
  simp [ecoRun, scanStep]

theorem stringNext_esc (b : Nat) : stringNext true b = ⟨true, false⟩ := rfl

theorem stringNext_backslash : stringNext false 92 = ⟨true, true⟩ := rfl

theorem stringNext_quote : stringNext false 34 = ⟨false, false⟩ := rfl

theorem stringNext_other (b : Nat) (h92 : (b == 92) = false) (h34 : (b == 34) = false) :
    stringNext false b = ⟨true, false⟩ := by
  simp [stringNext, h92, h34]

theorem isHex_ne (b : Nat) (h : isHex b = true) : (b == 92) = false ∧ (b == 34) = false := by
  simp only [isHex, isDigit, Bool.or_eq_true, Bool.and_eq_true, decide_eq_true_eq] at h
  constructor <;> simp only [beq_eq_false_iff_ne, ne_eq] <;> omega

theorem ecoRun_tok_cons (b : Nat) (rest : List Nat) (hws : isWs b = false)
    (h34 : (b == 34) = false) :
    ecoRun initScan (b :: rest) = b :: ecoRun initScan rest := by
  simp [ecoRun, scanStep, initScan, hws, h34]

theorem ecoRun_ws_cons (b : Nat) (rest : List Nat) (hws : isWs b = true) :
    ecoRun initScan (b :: rest) = ecoRun initScan rest := by
  simp [ecoRun, scanStep, initScan, hws]

theorem ecoRun_quote_cons (rest : List Nat) :
    ecoRun initScan (34 :: rest) = 34 :: ecoRun ⟨true, false⟩ rest := by
  simp [ecoRun, scanStep, initScan, isWs]

theorem ecoRun_skipWs (xs : List Nat) :
    ecoRun initScan (skipWs xs) = ecoRun initScan xs := by
  induction xs with
  | nil => rfl
  | cons b rest ih =>
    by_cases hws : isWs b = true
    · rw [skipWs, if_pos hws, ecoRun_ws_cons _ _ hws]
      exact ih
    · rw [skipWs, if_neg (by simp [Bool.not_eq_true] at hws; simp [hws])]

theorem ecoRun_copy : ∀ ts : List Nat, (∀ b ∈ ts, isWs b = false ∧ (b == 34) = false) →
    ∀ r, ecoRun initScan (ts ++ r) = ts ++ ecoRun initScan r := by
  intro ts
  induction ts with
  | nil => intro _ r; rfl
  | cons b ts ih =>
    intro hts r
    have hb := hts b (by simp)
    rw [List.cons_append, ecoRun_tok_cons _ _ hb.1 hb.2,
      ih (fun c hc => hts c (by simp [hc])) r]
    rfl

/-- Scanning a well-formed string body from the in-string state emits all
of its bytes verbatim and leaves the scanner outside the string; the same
for the escape and unicode-escape sub-scans from their states. -/
theorem string_eco_all (n : Nat) : ∀ xs : List Nat, xs.length ≤ n →
    (∀ out r, parseStringBody xs = some (out, r) →
      ecoRun ⟨true, false⟩ xs = out ++ ecoRun initScan r) ∧
    (∀ out r, parseEsc xs = some (out, r) →
      ecoRun ⟨true, true⟩ xs = out ++ ecoRun initScan r) ∧
    (∀ out r, parseU xs = some (out, r) →
      117 :: ecoRun ⟨true, false⟩ xs = out ++ ecoRun initScan r) := by
  induction n with
  | zero =>
    intro xs hlen
    have hx : xs = [] := List.eq_nil_of_length_eq_zero (Nat.le_zero.mp hlen)
    subst hx
    refine ⟨?_, ?_, ?_⟩ <;> intro out r h <;> simp [parseStringBody, parseEsc, parseU] at h
  | succ n ih =>
    intro xs hlen
    refine ⟨?_, ?_, ?_⟩
    · intro out r h
      match xs, hlen with
      | [], _ => simp [parseStringBody] at h
      | b :: rest, hlen =>
        have hrest : rest.length ≤ n := by simp at hlen; omega
        by_cases h34 : (b == 34) = true
        · have hb : b = 34 := by simpa using h34
          subst hb
          simp [parseStringBody] at h
          obtain ⟨rfl, rfl⟩ := h
          rw [ecoRun_inString_cons, stringNext_quote]
          rfl
        · by_cases h92 : (b == 92) = true
          · have hb : b = 92 := by simpa using h92
            subst hb
            simp [parseStringBody, Option.map_eq_some'] at h
            obtain ⟨p1, hp, rfl⟩ := h
            rw [ecoRun_inString_cons, stringNext_backslash, (ih rest hrest).2.1 _ _ hp]
            rfl
          · by_cases hlt : b < 32
            · simp [parseStringBody, h34, h92, hlt] at h
            · simp [parseStringBody, h34, h92, hlt, Option.map_eq_some'] at h
              obtain ⟨p1, hp, rfl⟩ := h
              have h34' : (b == 34) = false := by simpa using h34
              have h92' : (b == 92) = false := by simpa using h92
              rw [ecoRun_inString_cons, stringNext_other _ h92' h34',
                (ih rest hrest).1 _ _ hp]
              rfl
    · intro out r h
      match xs, hlen with
      | [], _ => simp [parseEsc] at h
      | e :: rest1, hlen =>
        have hrest : rest1.length ≤ n := by simp at hlen; omega
        by_cases hse : isSimpleEscape e = true
        · simp [parseEsc, hse, Option.map_eq_some'] at h
          obtain ⟨p1, hp, rfl⟩ := h
          rw [ecoRun_inString_cons, stringNext_esc, (ih rest1 hrest).1 _ _ hp]
          rfl
        · by_cases hu : (e == 117) = true
          · have he : e = 117 := by simpa using hu
            subst he
            simp [parseEsc, hse] at h
            rw [ecoRun_inString_cons, stringNext_esc]
            exact (ih rest1 hrest).2.2 _ _ h
          · simp [parseEsc, hse, hu] at h
    · intro out r h
      match xs, hlen with
      | [], _ => simp [parseU] at h
      | [c1], _ => simp [parseU] at h
      | [c1, c2], _ => simp [parseU] at h
      | [c1, c2, c3], _ => simp [parseU] at h
      | c1 :: c2 :: c3 :: c4 :: rest2, hlen =>
        have hrest : rest2.length ≤ n := by simp at hlen; omega
        by_cases hhex : (isHex c1 && isHex c2 && isHex c3 && isHex c4) = true
        · simp [parseU, hhex, Option.map_eq_some'] at h
          obtain ⟨p1, hp, rfl⟩ := h
          simp only [Bool.and_eq_true] at hhex
          obtain ⟨⟨⟨hx1, hx2⟩, hx3⟩, hx4⟩ := hhex
          rw [ecoRun_inString_cons, stringNext_other _ (isHex_ne _ hx1).1 (isHex_ne _ hx1).2,
            ecoRun_inString_cons, stringNext_other _ (isHex_ne _ hx2).1 (isHex_ne _ hx2).2,
            ecoRun_inString_cons, stringNext_other _ (isHex_ne _ hx3).1 (isHex_ne _ hx3).2,
            ecoRun_inString_cons, stringNext_other _ (isHex_ne _ hx4).1 (isHex_ne _ hx4).2,
            (ih rest2 hrest).1 _ _ hp]
          rfl
        · simp [parseU, hhex] at h

/-- Specialization of the string correspondence to the body scan. -/
theorem parseStringBody_eco (xs out r : List Nat) (h : parseStringBody xs = some (out, r)) :
    ecoRun ⟨true, false⟩ xs = out ++ ecoRun initScan r :=
  (string_eco_all xs.length xs le_rfl).1 out r h

theorem isNumByte_tok (b : Nat) (h : isNumByte b = true) :
    isWs b = false ∧ (b == 34) = false := by
  simp only [isNumByte, isDigit, Bool.or_eq_true, Bool.and_eq_true, decide_eq_true_eq,
    beq_iff_eq] at h
  constructor
  · simp only [isWs, Bool.or_eq_false_iff, beq_eq_false_iff_ne, ne_eq]
    omega
  · simp only [beq_eq_false_iff_ne, ne_eq]
    omega

theorem parseDigits_split (xs : List Nat) :
    (parseDigits xs).1 ++ (parseDigits xs).2 = xs ∧
    (∀ b ∈ (parseDigits xs).1, isDigit b = true) ∧
    headDigit (parseDigits xs).2 = false := by
  induction xs with
  | nil => simp [parseDigits, headDigit]
  | cons b rest ih =>
    by_cases hd : isDigit b = true
    · obtain ⟨h1, h2, h3⟩ := ih
      simp only [parseDigits, hd, if_true]
      refine ⟨by simp [h1], ?_, h3⟩
      intro c hc
      rcases List.mem_cons.mp hc with rfl | hc
      · exact hd
      · exact h2 c hc
    · simp only [Bool.not_eq_true] at hd
      simp [parseDigits, hd, headDigit]

theorem parseDigits_of_digits (ds : List Nat) (hds : ∀ b ∈ ds, isDigit b = true) :
    ∀ ys, headDigit ys = false → parseDigits (ds ++ ys) = (ds, ys) := by
  induction ds with
  | nil =>
    intro ys hys
    cases ys with
    | nil => simp [parseDigits]
    | cons c t =>
      simp only [headDigit] at hys
      simp [parseDigits, hys]
  | cons d ds ih =>
    intro ys hys
    have hd := hds d (by simp)
    simp [parseDigits, hd, ih (fun b hb => hds b (by simp [hb])) ys hys]

theorem parseIntPart_spec (xs ip r : List Nat) (h : parseIntPart xs = some (ip, r)) :
    ip ++ r = xs ∧ (∀ b ∈ ip, isDigit b = true) ∧ ∃ d ds, ip = d :: ds ∧ isDigit d = true := by
  cases xs with
  | nil => simp [parseIntPart] at h
  | cons b rest =>
    by_cases h48 : (b == 48) = true
    · have hb : b = 48 := by simpa using h48
      subst hb
      simp [parseIntPart] at h
      obtain ⟨rfl, rfl⟩ := h
      refine ⟨rfl, ?_, 48, [], rfl, by decide⟩
      intro c hc
      simp at hc
      subst hc
      decide
    · by_cases hd : isDigit b = true
      · simp [parseIntPart, h48, hd] at h
        obtain ⟨rfl, rfl⟩ := h
        obtain ⟨h1, h2, _⟩ := parseDigits_split rest
        refine ⟨by simp [h1], ?_, b, (parseDigits rest).1, rfl, hd⟩
        intro c hc
        rcases List.mem_cons.mp hc with rfl | hc
        · exact hd
        · exact h2 c hc
      · simp [parseIntPart, h48, hd] at h

theorem parseIntPart_reparse (xs ip r : List Nat) (h : parseIntPart xs = some (ip, r)) :
    ∀ ys, headDigit ys = false → parseIntPart (ip ++ ys) = some (ip, ys) := by
  cases xs with
  | nil => simp [parseIntPart] at h
  | cons b rest =>
    intro ys hys
    by_cases h48 : (b == 48) = true
    · have hb : b = 48 := by simpa using h48
      subst hb
      simp [parseIntPart] at h
      obtain ⟨rfl, rfl⟩ := h
      simp [parseIntPart]
    · by_cases hd : isDigit b = true
      · simp [parseIntPart, h48, hd] at h
        obtain ⟨rfl, rfl⟩ := h
        obtain ⟨_, h2, _⟩ := parseDigits_split rest
        simp [parseIntPart, h48, hd, parseDigits_of_digits _ h2 ys hys]
      · simp [parseIntPart, h48, hd] at h

theorem parseFrac_spec (xs fp r : List Nat) (h : parseFrac xs = some (fp, r)) :
    fp ++ r = xs ∧ (∀ b ∈ fp, isNumByte b = true) ∧ (fp = [] ∨ ∃ t, fp = 46 :: t) := by
  cases xs with
  | nil =>
    simp [parseFrac] at h
    obtain ⟨rfl, rfl⟩ := h
    simp
  | cons b rest =>
    by_cases h46 : (b == 46) = true
    · have hb : b = 46 := by simpa using h46
      subst hb
      by_cases he : ((parseDigits rest).1.isEmpty) = true
      · simp [parseFrac, he] at h
      · simp [parseFrac, he] at h
        obtain ⟨rfl, rfl⟩ := h
        obtain ⟨h1, h2, _⟩ := parseDigits_split rest
        refine ⟨by simp [h1], ?_, Or.inr ⟨_, rfl⟩⟩
        intro c hc
        rcases List.mem_cons.mp hc with rfl | hc
        · decide
        · have := h2 c hc
          simp [isNumByte, this]
    · simp [parseFrac, h46] at h
      obtain ⟨rfl, rfl⟩ := h
      simp

theorem parseFrac_reparse (xs fp r : List Nat) (h : parseFrac xs = some (fp, r)) :
    ∀ ys, headIs 46 ys = false → headDigit ys = false → parseFrac (fp ++ ys) = some (fp, ys) := by
  have base : ∀ ys : List Nat, headIs 46 ys = false → parseFrac ys = some ([], ys) := by
    intro ys h46
    cases ys with
    | nil => simp [parseFrac]
    | cons c t =>
      simp only [headIs] at h46
      simp [parseFrac, h46]
  cases xs with
  | nil =>
    intro ys h46 hd
    simp [parseFrac] at h
    obtain ⟨rfl, rfl⟩ := h
    exact base ys h46
  | cons b rest =>
    intro ys h46 hd
    by_cases hb46 : (b == 46) = true
    · have hb : b = 46 := by simpa using hb46
      subst hb
      by_cases he : ((parseDigits rest).1.isEmpty) = true
      · simp [parseFrac, he] at h
      · simp [parseFrac, he] at h
        obtain ⟨rfl, rfl⟩ := h
        obtain ⟨_, h2, _⟩ := parseDigits_split rest
        simp [parseFrac, parseDigits_of_digits _ h2 ys hd, he]
    · simp [parseFrac, hb46] at h
      obtain ⟨rfl, rfl⟩ := h
      exact base ys h46

theorem parseSign_spec (xs : List Nat) :
    (parseSign xs).1 ++ (parseSign xs).2 = xs ∧
    ((parseSign xs).1 = [] ∨ ∃ c, (parseSign xs).1 = [c] ∧ (c == 43 || c == 45) = true) := by
  cases xs with
  | nil => simp [parseSign]
  | cons c rest =>
    by_cases hc : (c == 43 || c == 45) = true
    · simp only [parseSign, hc, if_true]
      exact ⟨rfl, Or.inr ⟨c, rfl, hc⟩⟩
    · simp only [Bool.not_eq_true] at hc
      simp [parseSign, hc]

theorem parseExp_spec (xs ep r : List Nat) (h : parseExp xs = some (ep, r)) :
    ep ++ r = xs ∧ (∀ b ∈ ep, isNumByte b = true) ∧
    (ep = [] ∨ ∃ b t, ep = b :: t ∧ (b == 101 || b == 69) = true) := by
  cases xs with
  | nil =>
    simp [parseExp] at h
    obtain ⟨rfl, rfl⟩ := h
    simp
  | cons b rest =>
    by_cases hbe : (b == 101 || b == 69) = true
    · by_cases he : ((parseDigits (parseSign rest).2).1.isEmpty) = true
      · simp [parseExp, hbe, he] at h
      · simp [parseExp, hbe, he] at h
        obtain ⟨rfl, rfl⟩ := h
        obtain ⟨hs1, hs2⟩ := parseSign_spec rest
        obtain ⟨hd1, hd2, _⟩ := parseDigits_split (parseSign rest).2
        refine ⟨?_, ?_, Or.inr ⟨b, _, rfl, hbe⟩⟩
        · simp only [List.cons_append, List.append_assoc, List.cons.injEq, true_and]
          rw [hd1, hs1]
        · intro c hc
          rcases List.mem_cons.mp hc with rfl | hc
          · rcases Bool.or_eq_true_iff.mp hbe with h1 | h1
            · have hc1 : c = 101 := by simpa using h1
              subst hc1; decide
            · have hc1 : c = 69 := by simpa using h1
              subst hc1; decide
          · rcases List.mem_append.mp hc with hc | hc
            · rcases hs2 with hs2 | ⟨c2, hc2, hcs⟩
              · simp [hs2] at hc
              · rw [hc2] at hc
                simp at hc
                subst hc
                rcases Bool.or_eq_true_iff.mp hcs with h1 | h1
                · have hc1 : c = 43 := by simpa using h1
                  subst hc1; decide
                · have hc1 : c = 45 := by simpa using h1
                  subst hc1; decide
            · have := hd2 c hc
              simp [isNumByte, this]
    · simp [parseExp, hbe] at h
      obtain ⟨rfl, rfl⟩ := h
      simp

theorem parseExp_reparse (xs ep r : List Nat) (h : parseExp xs = some (ep, r)) :
    ∀ ys, headIs 101 ys = false → headIs 69 ys = false → headDigit ys = false →
    parseExp (ep ++ ys) = some (ep, ys) := by
  have base : ∀ ys : List Nat, headIs 101 ys = false → headIs 69 ys = false →
      parseExp ys = some ([], ys) := by
    intro ys h1 h2
    cases ys with
    | nil => simp [parseExp]
    | cons c t =>
      simp only [headIs] at h1 h2
      simp [parseExp, h1, h2]
  cases xs with
  | nil =>
    intro ys h1 h2 h3
    simp [parseExp] at h
    obtain ⟨rfl, rfl⟩ := h
    exact base ys h1 h2
  | cons b rest =>
    intro ys h1 h2 h3
    by_cases hbe : (b == 101 || b == 69) = true
    · by_cases he : ((parseDigits (parseSign rest).2).1.isEmpty) = true
      · simp [parseExp, hbe, he] at h
      · simp [parseExp, hbe, he] at h
        obtain ⟨rfl, rfl⟩ := h
        obtain ⟨hs1, hs2⟩ := parseSign_spec rest
        obtain ⟨hd1, hd2, _⟩ := parseDigits_split (parseSign rest).2
        have hdre := parseDigits_of_digits _ hd2 ys h3
        have hne : (parseDigits (parseSign rest).2).1 ≠ [] := by
          intro hcon
          rw [hcon] at he
          simp at he
        rcases hs2 with hs0 | ⟨c, hc, hcs⟩
        · have hps : parseSign ((parseDigits (parseSign rest).2).1 ++ ys)
              = ([], (parseDigits (parseSign rest).2).1 ++ ys) := by
            obtain ⟨d, ds, hds⟩ := List.exists_cons_of_ne_nil hne
            have hdd : isDigit d = true := hd2 d (by rw [hds]; simp)
            have hdsign : (d == 43 || d == 45) = false := by
              simp only [isDigit, Bool.and_eq_true, decide_eq_true_eq] at hdd
              simp only [Bool.or_eq_false_iff, beq_eq_false_iff_ne, ne_eq]
              omega
            rw [hds]
            simp [parseSign, hdsign]
          rw [hs0]
          simp only [List.nil_append, List.cons_append]
          simp only [parseExp, hbe, if_true]
          simp [hps, hdre, he]
        · have hps : parseSign (c :: ((parseDigits (parseSign rest).2).1 ++ ys))
              = ([c], (parseDigits (parseSign rest).2).1 ++ ys) := by
            simp [parseSign, hcs]
          rw [hc]
          simp only [List.cons_append, List.singleton_append]
          simp only [parseExp, hbe, if_true]
          simp [hps, hdre, he]
    · simp [parseExp, hbe] at h
      obtain ⟨rfl, rfl⟩ := h
      exact base ys h1 h2

theorem parseNeg_spec (xs : List Nat) :
    (parseNeg xs).1 ++ (parseNeg xs).2 = xs ∧
    ((parseNeg xs).1 = [] ∨ (parseNeg xs).1 = [45]) := by
  cases xs with
  | nil => simp [parseNeg]
  | cons c rest =>
    by_cases hc : (c == 45) = true
    · have hc' : c = 45 := by simpa using hc
      subst hc'
      simp [parseNeg]
    · simp only [Bool.not_eq_true] at hc
      simp [parseNeg, hc]

theorem noNumExt_heads (ys : List Nat) (h : noNumExt ys = true) :
    headDigit ys = false ∧ headIs 46 ys = false ∧ headIs 101 ys = false ∧
    headIs 69 ys = false ∧ headIs 45 ys = false := by
  cases ys with
  | nil => simp [headDigit, headIs]
  | cons c t =>
    simp only [noNumExt, Bool.not_eq_true'] at h
    have hc : ¬((48 ≤ c ∧ c ≤ 57) ∨ c = 45 ∨ c = 46 ∨ c = 101 ∨ c = 69 ∨ c = 43) := by
      intro hcon
      have : isNumByte c = true := by
        simp only [isNumByte, isDigit, Bool.or_eq_true, Bool.and_eq_true, decide_eq_true_eq,
          beq_iff_eq]
        tauto
      rw [h] at this
      exact Bool.false_ne_true this
    push_neg at hc
    refine ⟨?_, ?_, ?_, ?_, ?_⟩ <;>
      simp only [headDigit, headIs, isDigit, Bool.and_eq_false_iff, decide_eq_false_iff_not,
        not_le, beq_eq_false_iff_ne, ne_eq] <;>
      omega

theorem parseNumber_spec (xs out r : List Nat) (h : parseNumber xs = some (out, r)) :
    out ++ r = xs ∧ (∀ b ∈ out, isNumByte b = true) ∧
    ∃ c t, out = c :: t ∧ (c == 45 || isDigit c) = true := by
  simp only [parseNumber] at h
  rcases hip : parseIntPart (parseNeg xs).2 with _ | ⟨ip, xs2⟩ <;> rw [hip] at h
  · simp at h
  simp only [Option.some_bind] at h
  rcases hfp : parseFrac xs2 with _ | ⟨fp, xs3⟩ <;> rw [hfp] at h
  · simp at h
  simp only [Option.some_bind] at h
  rcases hep : parseExp xs3 with _ | ⟨ep, xs4⟩ <;> rw [hep] at h
  · simp at h
  simp only [Option.map_some', Option.some.injEq, Prod.mk.injEq] at h
  obtain ⟨rfl, rfl⟩ := h
  obtain ⟨hsp1, hsp2⟩ := parseNeg_spec xs
  obtain ⟨hip1, hip2, d, ds, hipds, hdd⟩ := parseIntPart_spec _ _ _ hip
  obtain ⟨hfp1, hfp2, _⟩ := parseFrac_spec _ _ _ hfp
  obtain ⟨hep1, hep2, _⟩ := parseExp_spec _ _ _ hep
  refine ⟨?_, ?_, ?_⟩
  · simp only [List.append_assoc]
    rw [hep1, hfp1, hip1, hsp1]
  · intro b hb
    simp only [List.append_assoc, List.mem_append] at hb
    rcases hb with hb | hb | hb | hb
    · rcases hsp2 with hs | hs <;> rw [hs] at hb
      · simp at hb
      · simp at hb
        subst hb
        decide
    · have := hip2 b hb
      simp [isNumByte, this]
    · exact hfp2 b hb
    · exact hep2 b hb
  · rcases hsp2 with hs | hs <;> rw [hs]
    · rw [hipds]
      exact ⟨d, ds ++ fp ++ ep, by simp, by simp [hdd]⟩
    · exact ⟨45, ip ++ fp ++ ep, by simp, by simp⟩

theorem parseNumber_eco (xs out r : List Nat) (h : parseNumber xs = some (out, r)) :
    ecoRun initScan xs = out ++ ecoRun initScan r := by
  obtain ⟨h1, h2, _⟩ := parseNumber_spec xs out r h
  rw [← h1]
  exact ecoRun_copy out (fun b hb => isNumByte_tok b (h2 b hb)) r

theorem parseNumber_reparse (xs out r : List Nat) (h : parseNumber xs = some (out, r))
    (ys : List Nat) (hys : noNumExt ys = true) :
    parseNumber (out ++ ys) = some (out, ys) := by
  simp only [parseNumber] at h
  rcases hip : parseIntPart (parseNeg xs).2 with _ | ⟨ip, xs2⟩ <;> rw [hip] at h
  · simp at h
  simp only [Option.some_bind] at h
  rcases hfp : parseFrac xs2 with _ | ⟨fp, xs3⟩ <;> rw [hfp] at h
  · simp at h
  simp only [Option.some_bind] at h
  rcases hep : parseExp xs3 with _ | ⟨ep, xs4⟩ <;> rw [hep] at h
  · simp at h
  simp only [Option.map_some', Option.some.injEq, Prod.mk.injEq] at h
  obtain ⟨rfl, rfl⟩ := h
  obtain ⟨hsp1, hsp2⟩ := parseNeg_spec xs
  obtain ⟨hip1, hip2, d, ds, hipds, hdd⟩ := parseIntPart_spec _ _ _ hip
  obtain ⟨hfp1, hfp2, hfps⟩ := parseFrac_spec _ _ _ hfp
  obtain ⟨hep1, hep2, heps⟩ := parseExp_spec _ _ _ hep
  obtain ⟨hnn1, hnn2, hnn3, hnn4, hnn5⟩ := noNumExt_heads ys hys
  have hepd : headDigit (ep ++ ys) = false := by
    rcases heps with hs | ⟨b, t, hs, hbs⟩ <;> rw [hs]
    · exact hnn1
    · have : b = 101 ∨ b = 69 := by
        rcases Bool.or_eq_true_iff.mp hbs with h1 | h1
        · exact Or.inl (by simpa using h1)
        · exact Or.inr (by simpa using h1)
      simp only [List.cons_append, headDigit, isDigit]
      rcases this with rfl | rfl <;> decide
  have hep46 : headIs 46 (ep ++ ys) = false := by
    rcases heps with hs | ⟨b, t, hs, hbs⟩ <;> rw [hs]
    · exact hnn2
    · have : b = 101 ∨ b = 69 := by
        rcases Bool.or_eq_true_iff.mp hbs with h1 | h1
        · exact Or.inl (by simpa using h1)
        · exact Or.inr (by simpa using h1)
      simp only [List.cons_append, headIs]
      rcases this with rfl | rfl <;> decide
  have hfpd : headDigit (fp ++ (ep ++ ys)) = false := by
    rcases hfps with hs | ⟨t, hs⟩ <;> rw [hs]
    · exact hepd
    · simp only [List.cons_append, headDigit, isDigit]
      decide
  have hire := parseIntPart_reparse _ _ _ hip (fp ++ (ep ++ ys)) hfpd
  have hfre := parseFrac_reparse _ _ _ hfp (ep ++ ys) hep46 hepd
  have hxre := parseExp_reparse _ _ _ hep ys hnn3 hnn4 hnn1
  rcases hsp2 with hs | hs <;> rw [hs]
  · have hneg : parseNeg (ip ++ (fp ++ (ep ++ ys))) = ([], ip ++ (fp ++ (ep ++ ys))) := by
      rw [hipds]
      have hd45 : (d == 45) = false := by
        simp only [isDigit, Bool.and_eq_true, decide_eq_true_eq] at hdd
        simp only [beq_eq_false_iff_ne, ne_eq]
        omega
      simp [parseNeg, hd45]
    simp only [List.nil_append, List.append_assoc]
    simp only [parseNumber, hneg, hire, Option.some_bind, hfre, hxre, Option.map_some']
    simp
  · have hneg : parseNeg (45 :: (ip ++ (fp ++ (ep ++ ys))))
        = ([45], ip ++ (fp ++ (ep ++ ys))) := by
      simp [parseNeg]
    simp only [List.cons_append, List.singleton_append, List.nil_append, List.append_assoc]
    simp only [parseNumber, hneg, hire, Option.some_bind, hfre, hxre, Option.map_some']
    simp

theorem headIs_some (c : Nat) (xs : List Nat) (h : headIs c xs = true) : ∃ t, xs = c :: t := by
  cases xs with
  | nil => simp [headIs] at h
  | cons b t =>
    simp only [headIs] at h
    have : b = c := by simpa using h
    exact ⟨t, by rw [this]⟩

theorem expectLit_spec : ∀ ls xs r : List Nat, expectLit ls xs = some r → xs = ls ++ r := by
  intro ls
  induction ls with
  | nil =>
    intro xs r h
    simp [expectLit] at h
    simp [h]
  | cons l ls ih =>
    intro xs r h
    cases xs with
    | nil => simp [expectLit] at h
    | cons x t =>
      by_cases hx : (x == l) = true
      · have hx' : x = l := by simpa using hx
        subst hx'
        simp only [expectLit, beq_self_eq_true, if_true] at h
        simp [ih t r h]
      · simp [expectLit, hx] at h

theorem tailOf_cons (b : Nat) (t : List Nat) : tailOf (b :: t) = t := rfl

/-- The structural parse of a value, member list, or element list emits
exactly what the whitespace-stripping scanner emits on the consumed
input. -/
theorem value_eco_all (fuel : Nat) :
    (∀ xs out r, parseValue fuel xs = some (out, r) →
      ecoRun initScan xs = out ++ ecoRun initScan r) ∧
    (∀ xs out r, parseMembers fuel xs = some (out, r) →
      ecoRun initScan xs = out ++ ecoRun initScan r) ∧
    (∀ xs out r, parseElements fuel xs = some (out, r) →
      ecoRun initScan xs = out ++ ecoRun initScan r) := by
  induction fuel with
  | zero =>
    refine ⟨?_, ?_, ?_⟩ <;> intro xs out r h <;>
      simp [parseValue, parseMembers, parseElements] at h
  | succ fuel ih =>
    obtain ⟨ihv, ihm, ihe⟩ := ih
    refine ⟨?_, ?_, ?_⟩
    · intro xs out r h
      by_cases h34 : headIs 34 xs = true
      · obtain ⟨t, rfl⟩ := headIs_some _ _ h34
        simp only [parseValue, h34, if_true, tailOf, Option.map_eq_some', Prod.exists,
          Prod.mk.injEq] at h
        obtain ⟨o1, o2, hp, rfl, rfl⟩ := h
        rw [ecoRun_quote_cons, parseStringBody_eco _ _ _ hp]
        rfl
      · by_cases h123 : headIs 123 xs = true
        · obtain ⟨t, rfl⟩ := headIs_some _ _ h123
          simp only [parseValue, h34, h123, if_true, Bool.false_eq_true, if_false, tailOf] at h
          by_cases h125 : headIs 125 (skipWs t) = true
          · obtain ⟨t2, hsw⟩ := headIs_some _ _ h125
            rw [h125] at h
            simp only [if_true, Option.some.injEq, Prod.mk.injEq] at h
            obtain ⟨rfl, rfl⟩ := h
            rw [ecoRun_tok_cons 123 _ (by decide) (by decide), ← ecoRun_skipWs t, hsw,
              ecoRun_tok_cons 125 _ (by decide) (by decide)]
            rfl
          · rw [eq_false_of_ne_true h125] at h
            simp only [Bool.false_eq_true, if_false, Option.map_eq_some', Prod.exists,
              Prod.mk.injEq] at h
            obtain ⟨o1, o2, hp, rfl, rfl⟩ := h
            rw [ecoRun_tok_cons 123 _ (by decide) (by decide), ← ecoRun_skipWs t,
              ihm _ _ _ hp]
            rfl
        · by_cases h91 : headIs 91 xs = true
          · obtain ⟨t, rfl⟩ := headIs_some _ _ h91
            simp only [parseValue, h34, h123, h91, if_true, Bool.false_eq_true, if_false,
              tailOf] at h
            by_cases h93 : headIs 93 (skipWs t) = true
            · obtain ⟨t2, hsw⟩ := headIs_some _ _ h93
              rw [h93] at h
              simp only [if_true, Option.some.injEq, Prod.mk.injEq] at h
              obtain ⟨rfl, rfl⟩ := h
              rw [ecoRun_tok_cons 91 _ (by decide) (by decide), ← ecoRun_skipWs t, hsw,
                ecoRun_tok_cons 93 _ (by decide) (by decide)]
              rfl
            · rw [eq_false_of_ne_true h93] at h
              simp only [Bool.false_eq_true, if_false, Option.map_eq_some', Prod.exists,
                Prod.mk.injEq] at h
              obtain ⟨o1, o2, hp, rfl, rfl⟩ := h
              rw [ecoRun_tok_cons 91 _ (by decide) (by decide), ← ecoRun_skipWs t,
                ihe _ _ _ hp]
              rfl
          · by_cases h116 : headIs 116 xs = true
            · simp only [parseValue, h34, h123, h91, h116, if_true, Bool.false_eq_true,
                if_false, Option.map_eq_some', Prod.mk.injEq] at h
              obtain ⟨r1, hp, rfl, rfl⟩ := h
              rw [expectLit_spec _ _ _ hp]
              exact ecoRun_copy _ (by decide) _
            · by_cases h102 : headIs 102 xs = true
              · simp only [parseValue, h34, h123, h91, h116, h102, if_true, Bool.false_eq_true,
                  if_false, Option.map_eq_some', Prod.mk.injEq] at h
                obtain ⟨r1, hp, rfl, rfl⟩ := h
                rw [expectLit_spec _ _ _ hp]
                exact ecoRun_copy _ (by decide) _
              · by_cases h110 : headIs 110 xs = true
                · simp only [parseValue, h34, h123, h91, h116, h102, h110, if_true,
                    Bool.false_eq_true, if_false, Option.map_eq_some'] at h
                  obtain ⟨r1, hp, rfl, rfl⟩ := h
                  rw [expectLit_spec _ _ _ hp]
                  exact ecoRun_copy _ (by decide) _
                · by_cases hnum : (headIs 45 xs || headDigit xs) = true
                  · simp only [parseValue, h34, h123, h91, h116, h102, h110, hnum, if_true,
                      Bool.false_eq_true, if_false] at h
                    exact parseNumber_eco _ _ _ h
                  · simp only [parseValue, h34, h123, h91, h116, h102, h110, hnum,
                      Bool.false_eq_true, if_false] at h
                    exact Option.noConfusion h
    · intro xs out r h
      by_cases h34 : headIs 34 xs = true
      · obtain ⟨t, rfl⟩ := headIs_some _ _ h34
        simp only [parseMembers, h34, if_true, tailOf] at h
        rcases hk : parseStringBody t with _ | ⟨kout, r1⟩ <;> rw [hk] at h
        · simp at h
        simp only [Option.some_bind] at h
        by_cases h58 : headIs 58 (skipWs r1) = true
        · obtain ⟨r2, hsw⟩ := headIs_some _ _ h58
          rw [h58] at h
          simp only [if_true, hsw, tailOf] at h
          rcases hv : parseValue fuel (skipWs r2) with _ | ⟨vout, r3⟩ <;> rw [hv] at h
          · simp at h
          simp only [Option.some_bind] at h
          by_cases h44 : headIs 44 (skipWs r3) = true
          · obtain ⟨r4, hsw3⟩ := headIs_some _ _ h44
            rw [h44] at h
            simp only [if_true, hsw3, tailOf, Option.map_eq_some', Prod.exists,
              Prod.mk.injEq] at h
            obtain ⟨o1, o2, hp, rfl, rfl⟩ := h
            rw [ecoRun_quote_cons, parseStringBody_eco _ _ _ hk, ← ecoRun_skipWs r1, hsw,
              ecoRun_tok_cons 58 _ (by decide) (by decide), ← ecoRun_skipWs r2,
              ihv _ _ _ hv, ← ecoRun_skipWs r3, hsw3,
              ecoRun_tok_cons 44 _ (by decide) (by decide), ← ecoRun_skipWs r4,
              ihm _ _ _ hp]
            simp
          · by_cases h125 : headIs 125 (skipWs r3) = true
            · obtain ⟨r4, hsw3⟩ := headIs_some _ _ h125
              rw [eq_false_of_ne_true h44, h125] at h
              simp only [if_true, Bool.false_eq_true, if_false, hsw3, tailOf,
                Option.some.injEq, Prod.mk.injEq] at h
              obtain ⟨rfl, rfl⟩ := h
              rw [ecoRun_quote_cons, parseStringBody_eco _ _ _ hk, ← ecoRun_skipWs r1, hsw,
                ecoRun_tok_cons 58 _ (by decide) (by decide), ← ecoRun_skipWs r2,
                ihv _ _ _ hv, ← ecoRun_skipWs r3, hsw3,
                ecoRun_tok_cons 125 _ (by decide) (by decide)]
              simp
            · rw [eq_false_of_ne_true h44, eq_false_of_ne_true h125] at h
              simp at h
        · rw [eq_false_of_ne_true h58] at h
          simp at h
      · simp only [parseMembers, h34, Bool.false_eq_true, if_false] at h
        exact Option.noConfusion h
    · intro xs out r h
      simp only [parseElements] at h
      rcases hv : parseValue fuel xs with _ | ⟨vout, r1⟩ <;> rw [hv] at h
      · simp at h
      simp only [Option.some_bind] at h
      by_cases h44 : headIs 44 (skipWs r1) = true
      · obtain ⟨r2, hsw⟩ := headIs_some _ _ h44
        rw [h44] at h
        simp only [if_true, hsw, tailOf, Option.map_eq_some', Prod.exists,
          Prod.mk.injEq] at h
        obtain ⟨o1, o2, hp, rfl, rfl⟩ := h
        rw [ihv _ _ _ hv, ← ecoRun_skipWs r1, hsw,
          ecoRun_tok_cons 44 _ (by decide) (by decide), ← ecoRun_skipWs r2,
          ihe _ _ _ hp]
        simp
      · by_cases h93 : headIs 93 (skipWs r1) = true
        · obtain ⟨r2, hsw⟩ := headIs_some _ _ h93
          rw [eq_false_of_ne_true h44, h93] at h
          simp only [if_true, Bool.false_eq_true, if_false, hsw, tailOf,
            Option.some.injEq, Prod.mk.injEq] at h
          obtain ⟨rfl, rfl⟩ := h
          rw [ihv _ _ _ hv, ← ecoRun_skipWs r1, hsw,
            ecoRun_tok_cons 93 _ (by decide) (by decide)]
          simp
        · rw [eq_false_of_ne_true h44, eq_false_of_ne_true h93] at h
          simp at h

/-- The minified parse output of valid input is exactly the scanner's
whitespace-stripped rendition of that input. -/
theorem minifyParse_eco (xs out : List Nat) (h : minifyParse xs = some out) :
    minifyEco xs = out := by
  simp only [minifyParse] at h
  rcases hv : parseValue (xs.length + 1) (skipWs xs) with _ | ⟨vout, r⟩ <;> rw [hv] at h
  · simp at h
  simp only [Option.some_bind] at h
  by_cases he : (skipWs r).isEmpty = true
  · simp only [he, if_true, Option.some.injEq] at h
    subst h
    have h1 := (value_eco_all (xs.length + 1)).1 _ _ _ hv
    have hr : skipWs r = [] := by simpa using he
    unfold minifyEco
    rw [← ecoRun_skipWs xs, h1, ← ecoRun_skipWs r, hr]
    simp [ecoRun]
  · simp [he] at h

/-- Reparsing a minified string body consumes exactly that body again: the
string scan is insensitive to what follows. -/
theorem string_reparse_all (n : Nat) : ∀ xs : List Nat, xs.length ≤ n →
    (∀ out r, parseStringBody xs = some (out, r) →
      ∀ ys, parseStringBody (out ++ ys) = some (out, ys)) ∧
    (∀ out r, parseEsc xs = some (out, r) →
      ∀ ys, parseEsc (out ++ ys) = some (out, ys)) ∧
    (∀ out r, parseU xs = some (out, r) →
      ∃ t, out = 117 :: t ∧ ∀ ys, parseU (t ++ ys) = some (out, ys)) := by
  induction n with
  | zero =>
    intro xs hlen
    have hx : xs = [] := List.eq_nil_of_length_eq_zero (Nat.le_zero.mp hlen)
    subst hx
    refine ⟨?_, ?_, ?_⟩ <;> intro out r h <;> simp [parseStringBody, parseEsc, parseU] at h
  | succ n ih =>
    intro xs hlen
    refine ⟨?_, ?_, ?_⟩
    · intro out r h
      match xs, hlen with
      | [], _ => simp [parseStringBody] at h
      | b :: rest, hlen =>
        have hrest : rest.length ≤ n := by simp at hlen; omega
        by_cases h34 : (b == 34) = true
        · have hb : b = 34 := by simpa using h34
          subst hb
          simp [parseStringBody] at h
          obtain ⟨rfl, rfl⟩ := h
          intro ys
          simp [parseStringBody]
        · by_cases h92 : (b == 92) = true
          · have hb : b = 92 := by simpa using h92
            subst hb
            simp [parseStringBody, Option.map_eq_some'] at h
            obtain ⟨p1, hp, rfl⟩ := h
            intro ys
            rw [List.cons_append]
            simp [parseStringBody, (ih rest hrest).2.1 _ _ hp ys]
          · by_cases hlt : b < 32
            · simp [parseStringBody, h34, h92, hlt] at h
            · simp [parseStringBody, h34, h92, hlt, Option.map_eq_some'] at h
              obtain ⟨p1, hp, rfl⟩ := h
              intro ys
              rw [List.cons_append]
              simp [parseStringBody, h34, h92, hlt, (ih rest hrest).1 _ _ hp ys]
    · intro out r h
      match xs, hlen with
      | [], _ => simp [parseEsc] at h
      | e :: rest1, hlen =>
        have hrest : rest1.length ≤ n := by simp at hlen; omega
        by_cases hse : isSimpleEscape e = true
        · simp [parseEsc, hse, Option.map_eq_some'] at h
          obtain ⟨p1, hp, rfl⟩ := h
          intro ys
          rw [List.cons_append]
          simp [parseEsc, hse, (ih rest1 hrest).1 _ _ hp ys]
        · by_cases hu : (e == 117) = true
          · have he : e = 117 := by simpa using hu
            subst he
            simp [parseEsc, hse] at h
            obtain ⟨t, rfl, hrep⟩ := (ih rest1 hrest).2.2 _ _ h
            intro ys
            rw [List.cons_append]
            simp [parseEsc, isSimpleEscape, hrep ys]
          · simp [parseEsc, hse, hu] at h
    · intro out r h
      match xs, hlen with
      | [], _ => simp [parseU] at h
      | [c1], _ => simp [parseU] at h
      | [c1, c2], _ => simp [parseU] at h
      | [c1, c2, c3], _ => simp [parseU] at h
      | c1 :: c2 :: c3 :: c4 :: rest2, hlen =>
        have hrest : rest2.length ≤ n := by simp at hlen; omega
        by_cases hhex : (isHex c1 && isHex c2 && isHex c3 && isHex c4) = true
        · simp [parseU, hhex, Option.map_eq_some'] at h
          obtain ⟨p1, hp, rfl⟩ := h
          refine ⟨_, rfl, ?_⟩
          intro ys
          simp only [List.cons_append, List.append_assoc]
          simp [parseU, hhex, (ih rest2 hrest).1 _ _ hp ys]
        · simp [parseU, hhex] at h

theorem skipWs_cons_nonws (c : Nat) (t : List Nat) (h : isWs c = false) :
    skipWs (c :: t) = c :: t := by
  simp [skipWs, h]

theorem valueStart_facts (c : Nat) (h : valueStart c = true) :
    isWs c = false ∧ (c == 93) = false ∧ (c == 125) = false ∧ (c == 44) = false ∧
    (c == 58) = false := by
  simp only [valueStart, isDigit, Bool.or_eq_true, beq_iff_eq, Bool.and_eq_true,
    decide_eq_true_eq] at h
  refine ⟨?_, ?_, ?_, ?_, ?_⟩
  · simp only [isWs, Bool.or_eq_false_iff, beq_eq_false_iff_ne, ne_eq]
    omega
  all_goals simp only [beq_eq_false_iff_ne, ne_eq]; omega

theorem numStart_facts (c : Nat) (h : (c == 45 || isDigit c) = true) :
    (c == 34) = false ∧ (c == 123) = false ∧ (c == 91) = false ∧ (c == 116) = false ∧
    (c == 102) = false ∧ (c == 110) = false := by
  simp only [isDigit, Bool.or_eq_true, beq_iff_eq, Bool.and_eq_true, decide_eq_true_eq] at h
  refine ⟨?_, ?_, ?_, ?_, ?_, ?_⟩ <;> simp only [beq_eq_false_iff_ne, ne_eq] <;> omega

/-- Reparsing a minified value, member list, or element list consumes
exactly that rendering again, for any fuel above its length and any
continuation that cannot extend a number token. -/
theorem value_reparse_all (fuel : Nat) :
    (∀ xs out r, parseValue fuel xs = some (out, r) →
      (∃ c t, out = c :: t ∧ valueStart c = true) ∧
      ∀ ys g, noNumExt ys = true → out.length < g →
        parseValue g (out ++ ys) = some (out, ys)) ∧
    (∀ xs out r, parseMembers fuel xs = some (out, r) →
      (∃ t, out = 34 :: t) ∧
      ∀ ys g, noNumExt ys = true → out.length < g →
        parseMembers g (out ++ ys) = some (out, ys)) ∧
    (∀ xs out r, parseElements fuel xs = some (out, r) →
      (∃ c t, out = c :: t ∧ valueStart c = true) ∧
      ∀ ys g, noNumExt ys = true → out.length < g →
        parseElements g (out ++ ys) = some (out, ys)) := by
  induction fuel with
  | zero =>
    refine ⟨?_, ?_, ?_⟩ <;> intro xs out r h <;>
      simp [parseValue, parseMembers, parseElements] at h
  | succ fuel ih =>
    obtain ⟨ihv, ihm, ihe⟩ := ih
    refine ⟨?_, ?_, ?_⟩
    · intro xs out r h
      by_cases h34 : headIs 34 xs = true
      · obtain ⟨t, rfl⟩ := headIs_some _ _ h34
        simp only [parseValue, h34, if_true, tailOf, Option.map_eq_some', Prod.exists,
          Prod.mk.injEq] at h
        obtain ⟨o1, o2, hp, rfl, rfl⟩ := h
        have hsr := (string_reparse_all t.length t le_rfl).1 _ _ hp
        refine ⟨⟨34, o1, rfl, by decide⟩, ?_⟩
        intro ys g _ hg
        obtain ⟨g', rfl⟩ : ∃ g', g = g' + 1 := ⟨g - 1, by omega⟩
        rw [List.cons_append]
        simp [parseValue, headIs, tailOf, hsr ys]
      · by_cases h123 : headIs 123 xs = true
        · obtain ⟨t, rfl⟩ := headIs_some _ _ h123
          simp only [parseValue, h34, h123, if_true, Bool.false_eq_true, if_false, tailOf] at h
          by_cases h125 : headIs 125 (skipWs t) = true
          · rw [h125] at h
            simp only [if_true, Option.some.injEq, Prod.mk.injEq] at h
            obtain ⟨rfl, rfl⟩ := h
            refine ⟨⟨123, [125], rfl, by decide⟩, ?_⟩
            intro ys g _ hg
            obtain ⟨g', rfl⟩ : ∃ g', g = g' + 1 := ⟨g - 1, by omega⟩
            simp [parseValue, headIs, tailOf, skipWs, isWs]
          · rw [eq_false_of_ne_true h125] at h
            simp only [Bool.false_eq_true, if_false, Option.map_eq_some', Prod.exists,
              Prod.mk.injEq] at h
            obtain ⟨o1, o2, hp, rfl, rfl⟩ := h
            obtain ⟨⟨t2, hmt⟩, hmre⟩ := ihm _ _ _ hp
            refine ⟨⟨123, o1, rfl, by decide⟩, ?_⟩
            intro ys g hys hg
            obtain ⟨g', rfl⟩ : ∃ g', g = g' + 1 := ⟨g - 1, by omega⟩
            have hre := hmre ys g' hys (by simp at hg; omega)
            rw [hmt] at hre ⊢
            simp only [List.cons_append] at hre ⊢
            simp [parseValue, headIs, tailOf, skipWs, isWs, hre]
        · by_cases h91 : headIs 91 xs = true
          · obtain ⟨t, rfl⟩ := headIs_some _ _ h91
            simp only [parseValue, h34, h123, h91, if_true, Bool.false_eq_true, if_false,
              tailOf] at h
            by_cases h93 : headIs 93 (skipWs t) = true
            · rw [h93] at h
              simp only [if_true, Option.some.injEq, Prod.mk.injEq] at h
              obtain ⟨rfl, rfl⟩ := h
              refine ⟨⟨91, [93], rfl, by decide⟩, ?_⟩
              intro ys g _ hg
              obtain ⟨g', rfl⟩ : ∃ g', g = g' + 1 := ⟨g - 1, by omega⟩
              simp [parseValue, headIs, tailOf, skipWs, isWs]
            · rw [eq_false_of_ne_true h93] at h
              simp only [Bool.false_eq_true, if_false, Option.map_eq_some', Prod.exists,
                Prod.mk.injEq] at h
              obtain ⟨o1, o2, hp, rfl, rfl⟩ := h
              obtain ⟨⟨c, t2, hct, hcs⟩, here2⟩ := ihe _ _ _ hp
              obtain ⟨hc1, hc2, hc3, hc4, hc5⟩ := valueStart_facts c hcs
              refine ⟨⟨91, o1, rfl, by decide⟩, ?_⟩
              intro ys g hys hg
              obtain ⟨g', rfl⟩ : ∃ g', g = g' + 1 := ⟨g - 1, by omega⟩
              have hre := here2 ys g' hys (by simp at hg; omega)
              rw [hct] at hre ⊢
              simp only [List.cons_append] at hre ⊢
              simp [parseValue, headIs, tailOf, skipWs_cons_nonws _ _ hc1, hc2, hre]
          · by_cases h116 : headIs 116 xs = true
            · simp only [parseValue, h34, h123, h91, h116, if_true, Bool.false_eq_true,
                if_false, Option.map_eq_some', Prod.mk.injEq] at h
              obtain ⟨r1, hp, rfl, rfl⟩ := h
              refine ⟨⟨116, _, rfl, by decide⟩, ?_⟩
              intro ys g _ hg
              obtain ⟨g', rfl⟩ : ∃ g', g = g' + 1 := ⟨g - 1, by omega⟩
              simp [parseValue, headIs, tailOf, expectLit]
            · by_cases h102 : headIs 102 xs = true
              · simp only [parseValue, h34, h123, h91, h116, h102, if_true, Bool.false_eq_true,
                  if_false, Option.map_eq_some', Prod.mk.injEq] at h
                obtain ⟨r1, hp, rfl, rfl⟩ := h
                refine ⟨⟨102, _, rfl, by decide⟩, ?_⟩
                intro ys g _ hg
                obtain ⟨g', rfl⟩ : ∃ g', g = g' + 1 := ⟨g - 1, by omega⟩
                simp [parseValue, headIs, tailOf, expectLit]
              · by_cases h110 : headIs 110 xs = true
                · simp only [parseValue, h34, h123, h91, h116, h102, h110, if_true,
                    Bool.false_eq_true, if_false, Option.map_eq_some', Prod.mk.injEq] at h
                  obtain ⟨r1, hp, rfl, rfl⟩ := h
                  refine ⟨⟨110, _, rfl, by decide⟩, ?_⟩
                  intro ys g _ hg
                  obtain ⟨g', rfl⟩ : ∃ g', g = g' + 1 := ⟨g - 1, by omega⟩
                  simp [parseValue, headIs, tailOf, expectLit]
                · by_cases hnum : (headIs 45 xs || headDigit xs) = true
                  · simp only [parseValue, h34, h123, h91, h116, h102, h110, hnum, if_true,
                      Bool.false_eq_true, if_false] at h
                    obtain ⟨_, _, c, t', hct, hcd⟩ := parseNumber_spec _ _ _ h
                    obtain ⟨hd34, hd123, hd91, hd116, hd102, hd110⟩ := numStart_facts c hcd
                    refine ⟨⟨c, t', hct, ?_⟩, ?_⟩
                    · rcases Bool.or_eq_true_iff.mp hcd with h45 | hd
                      · have hc : c = 45 := by simpa using h45
                        subst hc
                        decide
                      · simp [valueStart, hd]
                    · intro ys g hys hg
                      obtain ⟨g', rfl⟩ : ∃ g', g = g' + 1 := ⟨g - 1, by omega⟩
                      have hre := parseNumber_reparse _ _ _ h ys hys
                      rw [hct] at hre ⊢
                      simp only [List.cons_append] at hre ⊢
                      simp [parseValue, headIs, headDigit, hd34, hd123, hd91, hd116, hd102,
                        hd110, hcd, hre]
                  · simp only [parseValue, h34, h123, h91, h116, h102, h110, hnum,
                      Bool.false_eq_true, if_false] at h
                    exact Option.noConfusion h
    · intro xs out r h
      by_cases h34 : headIs 34 xs = true
      · obtain ⟨t, rfl⟩ := headIs_some _ _ h34
        simp only [parseMembers, h34, if_true, tailOf] at h
        rcases hk : parseStringBody t with _ | ⟨kout, r1⟩ <;> rw [hk] at h
        · simp at h
        simp only [Option.some_bind] at h
        by_cases h58 : headIs 58 (skipWs r1) = true
        · obtain ⟨r2, hsw⟩ := headIs_some _ _ h58
          rw [h58] at h
          simp only [if_true, hsw, tailOf] at h
          rcases hv : parseValue fuel (skipWs r2) with _ | ⟨vout, r3⟩ <;> rw [hv] at h
          · simp at h
          simp only [Option.some_bind] at h
          obtain ⟨⟨c, t', hct, hcs⟩, hvre⟩ := ihv _ _ _ hv
          obtain ⟨hc1, hc2, hc3, hc4, hc5⟩ := valueStart_facts c hcs
          have hksr := (string_reparse_all t.length t le_rfl).1 _ _ hk
          by_cases h44 : headIs 44 (skipWs r3) = true
          · obtain ⟨r4, hsw3⟩ := headIs_some _ _ h44
            rw [h44] at h
            simp only [if_true, hsw3, tailOf, Option.map_eq_some', Prod.exists,
              Prod.mk.injEq] at h
            obtain ⟨o1, o2, hp, rfl, rfl⟩ := h
            obtain ⟨⟨t2, hmt⟩, hmre⟩ := ihm _ _ _ hp
            refine ⟨⟨_, rfl⟩, ?_⟩
            intro ys g hys hg
            obtain ⟨g', rfl⟩ : ∃ g', g = g' + 1 := ⟨g - 1, by omega⟩
            simp only [List.length_cons, List.length_append] at hg
            have hv' := hvre (44 :: (o1 ++ ys)) g'
              (by simp [noNumExt, isNumByte, isDigit]) (by omega)
            have hm' := hmre ys g' hys (by omega)
            have hk' := hksr (58 :: (vout ++ (44 :: (o1 ++ ys))))
            have hsko : skipWs (o1 ++ ys) = o1 ++ ys := by
              rw [hmt, List.cons_append]
              exact skipWs_cons_nonws _ _ (by decide)
            have ho125 : headIs 125 (o1 ++ ys) = false := by
              rw [hmt, List.cons_append]
              simp [headIs]
            have hsv : skipWs (vout ++ (44 :: (o1 ++ ys))) = vout ++ (44 :: (o1 ++ ys)) := by
              rw [hct, List.cons_append]
              exact skipWs_cons_nonws _ _ hc1
            simp only [List.cons_append, List.append_assoc]
            simp [parseMembers, headIs, tailOf, hk', skipWs_cons_nonws 58 _ (by decide),
              hsv, hv', skipWs_cons_nonws 44 _ (by decide), hsko, ho125, hm']
          · by_cases h125 : headIs 125 (skipWs r3) = true
            · obtain ⟨r4, hsw3⟩ := headIs_some _ _ h125
              rw [eq_false_of_ne_true h44, h125] at h
              simp only [if_true, Bool.false_eq_true, if_false, hsw3, tailOf,
                Option.some.injEq, Prod.mk.injEq] at h
              obtain ⟨rfl, rfl⟩ := h
              refine ⟨⟨_, rfl⟩, ?_⟩
              intro ys g hys hg
              obtain ⟨g', rfl⟩ : ∃ g', g = g' + 1 := ⟨g - 1, by omega⟩
              simp only [List.length_cons, List.length_append] at hg
              have hv' := hvre (125 :: ys) g'
                (by simp [noNumExt, isNumByte, isDigit]) (by omega)
              have hk' := hksr (58 :: (vout ++ (125 :: ys)))
              have hsv : skipWs (vout ++ (125 :: ys)) = vout ++ (125 :: ys) := by
                rw [hct, List.cons_append]
                exact skipWs_cons_nonws _ _ hc1
              simp only [List.cons_append, List.append_assoc]
              simp [parseMembers, headIs, tailOf, hk', skipWs_cons_nonws 58 _ (by decide),
                hsv, hv', skipWs_cons_nonws 125 _ (by decide)]
            · rw [eq_false_of_ne_true h44, eq_false_of_ne_true h125] at h
              simp at h
        · rw [eq_false_of_ne_true h58] at h
          simp at h
      · simp only [parseMembers, h34, Bool.false_eq_true, if_false] at h
        exact Option.noConfusion h
    · intro xs out r h
      simp only [parseElements] at h
      rcases hv : parseValue fuel xs with _ | ⟨vout, r1⟩ <;> rw [hv] at h
      · simp at h
      simp only [Option.some_bind] at h
      obtain ⟨⟨c, t', hct, hcs⟩, hvre⟩ := ihv _ _ _ hv
      obtain ⟨hc1, hc2, hc3, hc4, hc5⟩ := valueStart_facts c hcs
      by_cases h44 : headIs 44 (skipWs r1) = true
      · obtain ⟨r2, hsw⟩ := headIs_some _ _ h44
        rw [h44] at h
        simp only [if_true, hsw, tailOf, Option.map_eq_some', Prod.exists,
          Prod.mk.injEq] at h
        obtain ⟨o1, o2, hp, rfl, rfl⟩ := h
        obtain ⟨⟨c2, t2, hct2, hcs2⟩, hire⟩ := ihe _ _ _ hp
        obtain ⟨hd1, hd2, hd3, hd4, hd5⟩ := valueStart_facts c2 hcs2
        refine ⟨⟨c, t' ++ 44 :: o1, by rw [hct]; simp, hcs⟩, ?_⟩
        intro ys g hys hg
        obtain ⟨g', rfl⟩ : ∃ g', g = g' + 1 := ⟨g - 1, by omega⟩
        simp only [List.length_cons, List.length_append] at hg
        have hv' := hvre (44 :: (o1 ++ ys)) g'
          (by simp [noNumExt, isNumByte, isDigit]) (by omega)
        have hi' := hire ys g' hys (by omega)
        have hsko : skipWs (o1 ++ ys) = o1 ++ ys := by
          rw [hct2, List.cons_append]
          exact skipWs_cons_nonws _ _ hd1
        have ho93 : headIs 93 (o1 ++ ys) = false := by
          rw [hct2, List.cons_append]
          simp [headIs, hd2]
        simp only [List.cons_append, List.append_assoc]
        simp [parseElements, headIs, tailOf, hv', skipWs_cons_nonws 44 _ (by decide),
          hsko, ho93, hi']
      · by_cases h93 : headIs 93 (skipWs r1) = true
        · obtain ⟨r2, hsw⟩ := headIs_some _ _ h93
          rw [eq_false_of_ne_true h44, h93] at h
          simp only [if_true, Bool.false_eq_true, if_false, hsw, tailOf,
            Option.some.injEq, Prod.mk.injEq] at h
          obtain ⟨rfl, rfl⟩ := h
          refine ⟨⟨c, t' ++ [93], by rw [hct]; simp, hcs⟩, ?_⟩
          intro ys g hys hg
          obtain ⟨g', rfl⟩ : ∃ g', g = g' + 1 := ⟨g - 1, by omega⟩
          simp only [List.length_cons, List.length_append] at hg
          have hv' := hvre (93 :: ys) g'
            (by simp [noNumExt, isNumByte, isDigit]) (by omega)
          simp only [List.cons_append, List.append_assoc]
          simp [parseElements, headIs, tailOf, hv', skipWs_cons_nonws 93 _ (by decide)]
        · rw [eq_false_of_ne_true h44, eq_false_of_ne_true h93] at h
          simp at h

/-- Minified output parses again to itself: the key step of idempotence. -/
theorem minifyParse_reparse (xs out : List Nat) (h : minifyParse xs = some out) :
    minifyParse out = some out := by
  simp only [minifyParse] at h ⊢
  rcases hv : parseValue (xs.length + 1) (skipWs xs) with _ | ⟨vout, r⟩ <;> rw [hv] at h
  · simp at h
  simp only [Option.some_bind] at h
  by_cases he : (skipWs r).isEmpty = true
  · simp only [he, if_true, Option.some.injEq] at h
    subst h
    obtain ⟨⟨c, t, hct, hcs⟩, hre⟩ := (value_reparse_all (xs.length + 1)).1 _ _ _ hv
    have hc1 := (valueStart_facts c hcs).1
    have hskip : skipWs vout = vout := by
      rw [hct]
      exact skipWs_cons_nonws _ _ hc1
    rw [hskip]
    have hrep := hre [] (vout.length + 1) (by decide) (by omega)
    rw [List.append_nil] at hrep
    rw [hrep]
    simp [skipWs]
  · simp [he] at h

theorem isDefinedMode_iff (m : Int) : isDefinedMode m = true ↔ m = 0 ∨ m = 1 ∨ m = 2 := by
  constructor
  · intro h
    by_contra hc
    push_neg at hc
    obtain ⟨n0, n1, n2⟩ := hc
    simp [isDefinedMode, strategyForMode, n0, n1, n2] at h
  · rintro (rfl | rfl | rfl) <;> decide

/-- For a defined mode, the engine behaves as the single canonical pass on
valid input and as a malformed-JSON error otherwise. -/
theorem minify_mode_eq (input : List Nat) (m : Int) (hm : isDefinedMode m = true) :
    zmin_minify_mode input m =
      if zmin_validate input then
        { data := some (minifyEco input), size := (minifyEco input).length,
          error_code := ZMIN_OK }
      else { data := none, size := 0, error_code := ZMIN_ERROR_MALFORMED } := by
  simp only [isDefinedMode, Option.isSome_iff_exists] at hm
  obtain ⟨st, hst⟩ := hm
  simp [zmin_minify_mode, hst, runStrategy_eq]

/-- Valid input yields the parser-emitted minified buffer under every
defined mode. -/
theorem valid_minify (input out : List Nat) (m : Int) (hm : isDefinedMode m = true)
    (h : minifyParse input = some out) :
    zmin_minify_mode input m =
      { data := some out, size := out.length, error_code := ZMIN_OK } := by
  have hv : zmin_validate input = true := by simp [zmin_validate, h]
  rw [minify_mode_eq input m hm, if_pos hv, minifyParse_eco _ _ h]

theorem invalid_minify (input : List Nat) (m : Int) (hm : isDefinedMode m = true)
    (h : zmin_validate input = false) :
    zmin_minify_mode input m =
      { data := none, size := 0, error_code := ZMIN_ERROR_MALFORMED } := by
  rw [minify_mode_eq input m hm, if_neg (by simp [h])]

theorem minify_error_ne_invalid (input : List Nat) (m : Int) (hm : isDefinedMode m = true) :
    (zmin_minify_mode input m).error_code ≠ ZMIN_ERROR_INVALID_MODE := by
  rw [minify_mode_eq input m hm]
  by_cases hv : zmin_validate input = true <;> simp [hv] <;> decide

theorem minify_data_some_ok (input : List Nat) (m : Int) (out : List Nat)
    (h : (zmin_minify_mode input m).data = some out) :
    (zmin_minify_mode input m).error_code = ZMIN_OK := by
  rcases hsm : strategyForMode m with _ | st
  · simp [zmin_minify_mode, hsm] at h
  · by_cases hv : zmin_validate input = true
    · simp [zmin_minify_mode, hsm, hv]
    · simp only [Bool.not_eq_true] at hv
      simp [zmin_minify_mode, hsm, hv] at h

theorem binding_calls_engine (s : List Nat) (m : Int) :
    ZminBinding_Minify [NapiValue.vString s, NapiValue.vNumber m] =
      (if (zmin_minify_mode s m).error_code ≠ 0 then
        { ret := BindingReturn.jsError (zmin_minify_mode s m).error_code,
          calledMode := some m, frees := 1 }
      else
        { ret := BindingReturn.ok ((zmin_minify_mode s m).data.getD []),
          calledMode := some m, frees := 1 }) := by
  simp [ZminBinding_Minify]

theorem binding_default_mode (s : List Nat) (rest : List NapiValue)
    (hrest : rest = [] ∨ ∃ v rest2, rest = v :: rest2 ∧ v.isNum = false) :
    ZminBinding_Minify (NapiValue.vString s :: rest) =
      (if (zmin_minify_mode s 1).error_code ≠ 0 then
        { ret := BindingReturn.jsError (zmin_minify_mode s 1).error_code,
          calledMode := some 1, frees := 1 }
      else
        { ret := BindingReturn.ok ((zmin_minify_mode s 1).data.getD []),
          calledMode := some 1, frees := 1 }) := by
  rcases hrest with rfl | ⟨v, rest2, rfl, hv⟩
  · simp [ZminBinding_Minify]
  · cases v with
    | vString s2 => simp [ZminBinding_Minify]
    | vNumber n => simp [NapiValue.isNum] at hv
    | vOther => simp [ZminBinding_Minify]

/-- Claim C1: for every valid JSON input and every pair of defined modes,
minification returns byte-identical Results; the three strategies differ
only in execution, never in output bytes. -/
theorem zmin_c1_cross_mode (input : List Nat) (m1 m2 : Int)
    (h1 : isDefinedMode m1 = true) (h2 : isDefinedMode m2 = true)
    (hv : zmin_validate input = true) :
    zmin_minify_mode input m1 = zmin_minify_mode input m2 := by
  rw [minify_mode_eq _ _ h1, minify_mode_eq _ _ h2]

/-- Witness for C1 at the input null and the mode pair 0, 2. -/
theorem zmin_c1_cross_mode_witness :
    isDefinedMode 0 = true ∧ isDefinedMode 2 = true ∧
    zmin_validate [110, 117, 108, 108] = true ∧
    zmin_minify_mode [110, 117, 108, 108] 0 = zmin_minify_mode [110, 117, 108, 108] 2 :=
  ⟨by decide, by decide, by decide,
    zmin_c1_cross_mode [110, 117, 108, 108] 0 2 (by decide) (by decide) (by decide)⟩

/-- Claim C2: under every defined mode, minifying valid input keeps
exactly the input bytes that lie inside a string literal or are not
whitespace, in input order: only insignificant whitespace outside string
literals is removed, and whitespace inside string literals survives
byte-for-byte. -/
theorem zmin_c2_whitespace_removal (input : List Nat) (m : Int)
    (hm : isDefinedMode m = true) (hv : zmin_validate input = true) :
    (zmin_minify_mode input m).data =
      some (((stringCtx initScan input).filter fun p => p.2 || !isWs p.1).map Prod.fst) := by
  obtain ⟨out, hout⟩ : ∃ out, minifyParse input = some out := by
    simpa [zmin_validate, Option.isSome_iff_exists] using hv
  rw [valid_minify _ _ _ hm hout]
  have h2 : out = ((stringCtx initScan input).filter fun p => p.2 || !isWs p.1).map Prod.fst := by
    rw [← minifyParse_eco _ _ hout]
    simpa [minifyEco] using ecoRun_ctx input initScan
  rw [h2]

/-- Witness for C2 at a string containing interior whitespace and mode 1. -/
theorem zmin_c2_whitespace_removal_witness :
    isDefinedMode 1 = true ∧
    zmin_validate [123, 34, 97, 34, 58, 32, 34, 120, 32, 121, 34, 125] = true ∧
    (zmin_minify_mode [123, 34, 97, 34, 58, 32, 34, 120, 32, 121, 34, 125] 1).data =
      some (((stringCtx initScan [123, 34, 97, 34, 58, 32, 34, 120, 32, 121, 34, 125]).filter
        fun p => p.2 || !isWs p.1).map Prod.fst) :=
  ⟨by decide, by decide,
    zmin_c2_whitespace_removal [123, 34, 97, 34, 58, 32, 34, 120, 32, 121, 34, 125] 1
      (by decide) (by decide)⟩

/-- Claim C3: for every input and every defined mode, validation succeeds
exactly when minification reports error code zero. -/
theorem zmin_c3_validate_iff (input : List Nat) (m : Int) (hm : isDefinedMode m = true) :
    zmin_validate_int input ≠ 0 ↔ (zmin_minify_mode input m).error_code = 0 := by
  rw [minify_mode_eq _ _ hm]
  by_cases hv : zmin_validate input = true
  · simp [zmin_validate_int, hv, ZMIN_OK]
  · simp only [Bool.not_eq_true] at hv
    simp [zmin_validate_int, hv, ZMIN_OK, ZMIN_ERROR_MALFORMED]

/-- Witness for C3 at the input null and mode 0. -/
theorem zmin_c3_validate_iff_witness :
    isDefinedMode 0 = true ∧
    (zmin_validate_int [110, 117, 108, 108] ≠ 0 ↔
      (zmin_minify_mode [110, 117, 108, 108] 0).error_code = 0) :=
  ⟨by decide, zmin_c3_validate_iff [110, 117, 108, 108] 0 (by decide)⟩

/-- Claim C4: minification is idempotent on valid input: minifying the
output buffer again returns the identical Result. -/
theorem zmin_c4_idempotent (input : List Nat) (m : Int) (hm : isDefinedMode m = true)
    (hv : zmin_validate input = true) :
    ∃ out, (zmin_minify_mode input m).data = some out ∧
      zmin_minify_mode out m = zmin_minify_mode input m := by
  obtain ⟨out, hout⟩ : ∃ out, minifyParse input = some out := by
    simpa [zmin_validate, Option.isSome_iff_exists] using hv
  refine ⟨out, ?_, ?_⟩
  · rw [valid_minify _ _ _ hm hout]
  · rw [valid_minify _ _ _ hm hout, valid_minify _ _ _ hm (minifyParse_reparse _ _ hout)]

/-- Witness for C4 at a small array input and mode 1. -/
theorem zmin_c4_idempotent_witness :
    isDefinedMode 1 = true ∧ zmin_validate [91, 49, 44, 32, 50, 93] = true ∧
    ∃ out, (zmin_minify_mode [91, 49, 44, 32, 50, 93] 1).data = some out ∧
      zmin_minify_mode out 1 = zmin_minify_mode [91, 49, 44, 32, 50, 93] 1 :=
  ⟨by decide, by decide, zmin_c4_idempotent [91, 49, 44, 32, 50, 93] 1 (by decide) (by decide)⟩

/-- Claim C5: under every defined mode, empty input and whitespace-only
input fail with the malformed-JSON code and no output buffer, while the
input null succeeds with output exactly null. -/
theorem zmin_c5_boundary (m : Int) (hm : isDefinedMode m = true) :
    zmin_minify_mode [] m =
      { data := none, size := 0, error_code := ZMIN_ERROR_MALFORMED } ∧
    zmin_minify_mode [32, 32, 32] m =
      { data := none, size := 0, error_code := ZMIN_ERROR_MALFORMED } ∧
    zmin_minify_mode [110, 117, 108, 108] m =
      { data := some [110, 117, 108, 108], size := 4, error_code := ZMIN_OK } := by
  rcases (isDefinedMode_iff m).mp hm with rfl | rfl | rfl <;>
    exact ⟨by decide, by decide, by decide⟩

/-- Witness for C5 at mode 1. -/
theorem zmin_c5_boundary_witness :
    isDefinedMode 1 = true ∧
    (zmin_minify_mode [] 1 =
      { data := none, size := 0, error_code := ZMIN_ERROR_MALFORMED } ∧
    zmin_minify_mode [32, 32, 32] 1 =
      { data := none, size := 0, error_code := ZMIN_ERROR_MALFORMED } ∧
    zmin_minify_mode [110, 117, 108, 108] 1 =
      { data := some [110, 117, 108, 108], size := 4, error_code := ZMIN_OK }) :=
  ⟨by decide, zmin_c5_boundary 1 (by decide)⟩

/-- Claim C6: an undefined mode value yields the dedicated invalid-mode
error code, distinct from success, malformed-JSON and allocation-failure
codes, with no partial output buffer and no fallback to a default
strategy. -/
theorem zmin_c6_invalid_mode (input : List Nat) (m : Int) (hm : isDefinedMode m = false) :
    zmin_minify_mode input m =
      { data := none, size := 0, error_code := ZMIN_ERROR_INVALID_MODE } ∧
    ZMIN_ERROR_INVALID_MODE ≠ ZMIN_OK ∧
    ZMIN_ERROR_INVALID_MODE ≠ ZMIN_ERROR_MALFORMED ∧
    ZMIN_ERROR_INVALID_MODE ≠ ZMIN_ERROR_ALLOC := by
  have hsm : strategyForMode m = none := by
    rcases hsm : strategyForMode m with _ | st
    · rfl
    · simp [isDefinedMode, hsm] at hm
  exact ⟨by simp [zmin_minify_mode, hsm], by decide, by decide, by decide⟩

/-- Witness for C6 at mode 99 on valid input. -/
theorem zmin_c6_invalid_mode_witness :
    isDefinedMode 99 = false ∧
    (zmin_minify_mode [110, 117, 108, 108] 99 =
      { data := none, size := 0, error_code := ZMIN_ERROR_INVALID_MODE } ∧
    ZMIN_ERROR_INVALID_MODE ≠ ZMIN_OK ∧
    ZMIN_ERROR_INVALID_MODE ≠ ZMIN_ERROR_MALFORMED ∧
    ZMIN_ERROR_INVALID_MODE ≠ ZMIN_ERROR_ALLOC) :=
  ⟨by decide, zmin_c6_invalid_mode [110, 117, 108, 108] 99 (by decide)⟩

/-- Claim C7: a Result carries no dangling or engine-owned pointer on
error, its release succeeds once even for error Results, releasing it
removes the buffer from the live set and a second release of the same
Result fails, and the binding releases every engine Result exactly once. -/
theorem zmin_c7_free_result (input : List Nat) (mode : Int) (h : AllocState)
    (hwf : ∀ q ∈ h.live, q < h.nextId) :
    ((minifyAlloc input mode h).1.error_code ≠ 0 → (minifyAlloc input mode h).1.data = none) ∧
    (free_result (minifyAlloc input mode h).1 (minifyAlloc input mode h).2).isSome = true ∧
    (∀ p h2, (minifyAlloc input mode h).1.data = some p →
      free_result (minifyAlloc input mode h).1 (minifyAlloc input mode h).2 = some h2 →
      p ∉ h2.live ∧ free_result (minifyAlloc input mode h).1 h2 = none) ∧
    (ZminBinding_Minify [NapiValue.vString input, NapiValue.vNumber mode]).frees = 1 := by
  rcases hd : (zmin_minify_mode input mode).data with _ | out
  · refine ⟨fun _ => ?_, ?_, ?_, ?_⟩
    · simp [minifyAlloc, hd]
    · simp [minifyAlloc, hd, free_result]
    · intro p h2 hp
      simp [minifyAlloc, hd] at hp
    · rw [binding_calls_engine]
      by_cases he : (zmin_minify_mode input mode).error_code ≠ 0 <;> simp [he]
  · have hok := minify_data_some_ok _ _ _ hd
    have hnl : h.nextId ∉ h.live := fun hc => absurd (hwf _ hc) (by omega)
    refine ⟨fun hcon => ?_, ?_, ?_, ?_⟩
    · have hz : (minifyAlloc input mode h).1.error_code = 0 := by
        simp [minifyAlloc, hd, allocBuf, hok, ZMIN_OK]
      exact absurd hz hcon
    · simp [minifyAlloc, hd, free_result, allocBuf]
    · intro p h2 hp hf
      simp only [minifyAlloc, hd, allocBuf] at hp
      simp only [Option.some.injEq] at hp
      subst hp
      have hfa : free_result (minifyAlloc input mode h).1 (minifyAlloc input mode h).2
          = some ⟨h.nextId + 1, h.live⟩ := by
        simp [minifyAlloc, hd, free_result, allocBuf, List.erase_cons_head]
      rw [hfa] at hf
      have hh2 : h2 = ⟨h.nextId + 1, h.live⟩ := by
        simpa using hf.symm
      subst hh2
      exact ⟨hnl, by simp [minifyAlloc, hd, free_result, allocBuf, hnl]⟩
    · rw [binding_calls_engine]
      by_cases he : (zmin_minify_mode input mode).error_code ≠ 0 <;> simp [he]

/-- Witness for C7 on the empty allocation state, valid input, mode 1. -/
theorem zmin_c7_free_result_witness :
    (∀ q ∈ (AllocState.mk 0 []).live, q < (AllocState.mk 0 []).nextId) ∧
    (free_result (minifyAlloc [110, 117, 108, 108] 1 ⟨0, []⟩).1
      (minifyAlloc [110, 117, 108, 108] 1 ⟨0, []⟩).2).isSome = true :=
  ⟨by simp, (zmin_c7_free_result [110, 117, 108, 108] 1 ⟨0, []⟩ (by simp)).2.1⟩

/-- Claim C8: a call with no mode argument invokes the engine with mode 1,
and mode 1 selects the balanced strategy in the mode table. -/
theorem zmin_c8_default_mode (s : List Nat) :
    (ZminBinding_Minify [NapiValue.vString s]).calledMode = some 1 ∧
    strategyForMode 1 = some Strategy.balanced := by
  refine ⟨?_, by decide⟩
  rw [binding_default_mode s [] (Or.inl rfl)]
  by_cases he : (zmin_minify_mode s 1).error_code ≠ 0 <;> simp [he]

/-- Claim C10: the binding throws a TypeError exactly when it gets no
arguments or a non-string first argument; a present but non-numeric mode
argument is silently ignored, the engine runs with the default mode 1,
and the malformed mode argument itself never produces an error. -/
theorem zmin_c10_binding_type_errors :
    (∀ args : List NapiValue,
      (ZminBinding_Minify args).ret.isTypeError = badArgs args) ∧
    (∀ (s : List Nat) (v : NapiValue) (rest : List NapiValue), v.isNum = false →
      ZminBinding_Minify (NapiValue.vString s :: v :: rest) =
        ZminBinding_Minify [NapiValue.vString s] ∧
      (ZminBinding_Minify (NapiValue.vString s :: v :: rest)).calledMode = some 1 ∧
      (ZminBinding_Minify (NapiValue.vString s :: v :: rest)).ret ≠
        BindingReturn.jsError ZMIN_ERROR_INVALID_MODE) := by
  constructor
  · intro args
    match args with
    | [] => rfl
    | NapiValue.vNumber n :: rest => rfl
    | NapiValue.vOther :: rest => rfl
    | NapiValue.vString s :: rest =>
      simp only [ZminBinding_Minify, badArgs, NapiValue.isStr]
      split
      · rfl
      · rfl
  · intro s v rest hv
    have h1 := binding_default_mode s (v :: rest) (Or.inr ⟨v, rest, rfl, hv⟩)
    have h2 := binding_default_mode s [] (Or.inl rfl)
    refine ⟨by rw [h1, h2], ?_, ?_⟩
    · rw [h1]
      by_cases he : (zmin_minify_mode s 1).error_code ≠ 0 <;> simp [he]
    · rw [h1]
      have hne := minify_error_ne_invalid s 1 (by decide)
      by_cases he : (zmin_minify_mode s 1).error_code ≠ 0 <;> simp [he]
      exact hne

/-- Witness for C10: a non-numeric second argument is ignored and the call
equals the one-argument call. -/
theorem zmin_c10_binding_type_errors_witness :
    NapiValue.vOther.isNum = false ∧
    ZminBinding_Minify [NapiValue.vString [110, 117, 108, 108], NapiValue.vOther] =
      ZminBinding_Minify [NapiValue.vString [110, 117, 108, 108]] :=
  ⟨by decide,
    (zmin_c10_binding_type_errors.2 [110, 117, 108, 108] NapiValue.vOther [] (by decide)).1⟩

end Zmin
